import Mathlib

/-!
Shallow embedding of the Huntcore pyRevit extension scripts (Python,
IronPython 2.7 dialect) in Lean 4, restricted to the pure logic that the
scripts implement themselves.  Host-API objects (Revit documents,
worksets, colors, filters) are modelled as plain Lean data.  Python
strings are modelled as lists of Unicode code points (`List Nat`, one
`Nat` per character, mirroring `ord`/`chr`), with the usual ASCII case
mapping for `str.upper` / `str.lower` / `str.capitalize` / `str.isupper`.
-/

namespace Huntcore

/-- A Python string, as the list of code points of its characters. -/
abbrev PyStr := List Nat

/-- Code points of a Lean string literal, to write concrete examples. -/
def strOf (s : String) : PyStr := s.toList.map Char.toNat

/-! ## Python character and string primitives (ASCII fragment) -/

/-- ASCII decimal digit, as matched by the regex class `\d`. -/
def isDigitCh (c : Nat) : Bool := 48 ≤ c && c ≤ 57

/-- ASCII lowercase letter. -/
def isLowerCh (c : Nat) : Bool := 97 ≤ c && c ≤ 122

/-- ASCII uppercase letter. -/
def isUpperCh (c : Nat) : Bool := 65 ≤ c && c ≤ 90

/-- ASCII letter, as matched by the regex class `[A-Za-z]`. -/
def isAlphaCh (c : Nat) : Bool := isUpperCh c || isLowerCh c

/-- ASCII cased character, the characters `str.isupper` inspects. -/
def isCasedCh (c : Nat) : Bool := isLowerCh c || isUpperCh c

/-- ASCII hexadecimal digit, as matched by `[0-9A-Fa-f]`. -/
def isHexCh (c : Nat) : Bool :=
  isDigitCh c || (65 ≤ c && c ≤ 70) || (97 ≤ c && c ≤ 102)

/-- Python whitespace stripped by `str.strip()` (ASCII fragment). -/
def isSpaceCh (c : Nat) : Bool := c = 32 || c = 9 || c = 10 || c = 13 || c = 11 || c = 12

/-- ASCII uppercase mapping, as `str.upper` acts on each character. -/
def toUpCh (c : Nat) : Nat := if isLowerCh c then c - 32 else c

/-- ASCII lowercase mapping, as `str.lower` acts on each character. -/
def toLoCh (c : Nat) : Nat := if isUpperCh c then c + 32 else c

/-- Python `s.upper()`. -/
def pyUpper (s : PyStr) : PyStr := s.map toUpCh

/-- Python `s.lower()`. -/
def pyLower (s : PyStr) : PyStr := s.map toLoCh

/-- Python `s.capitalize()`: first character uppercased, the rest lowercased. -/
def pyCapitalize (s : PyStr) : PyStr :=
  match s with
  | [] => []
  | c :: rest => toUpCh c :: rest.map toLoCh

/-- Python `s.isupper()`: true iff the string has at least one cased
character and every cased character is uppercase. -/
def pyIsUpper (s : PyStr) : Bool :=
  s.any isCasedCh && s.all (fun c => !isCasedCh c || isUpperCh c)

/-- Python `s.strip()`: whitespace removed from both ends. -/
def pyStrip (s : PyStr) : PyStr :=
  ((s.dropWhile isSpaceCh).reverse.dropWhile isSpaceCh).reverse

/-- Numeric value of a run of ASCII digit code points, as Python
`int(...)` reads a digit string. -/
def digitsVal (s : PyStr) : Nat := s.foldl (fun acc c => acc * 10 + (c - 48)) 0

/-- Value of one hexadecimal digit code point. -/
def hexDigitVal (c : Nat) : Nat :=
  if isDigitCh c then c - 48
  else if 65 ≤ c && c ≤ 70 then c - 55
  else if 97 ≤ c && c ≤ 102 then c - 87
  else 0

/-- Value of a run of hexadecimal digit code points, as `int(..., 16)`. -/
def hexVal (s : PyStr) : Nat := s.foldl (fun acc c => acc * 16 + hexDigitVal c) 0

/-- Fuelled worker for `natRepr`; the fuel only bounds the recursion
depth and never runs out when it exceeds the argument. -/
def natReprGo : Nat → Nat → PyStr
  | 0, _ => []
  | fuel + 1, n =>
      if n < 10 then [48 + n] else natReprGo fuel (n / 10) ++ [48 + n % 10]

/-- Decimal digit string (code points) of a natural number, as Python
`str(...)` renders a nonnegative integer. -/
def natRepr (n : Nat) : PyStr := natReprGo (n + 1) n

lemma natReprGo_congr : ∀ n f1 f2 : Nat, n < f1 → n < f2 →
    natReprGo f1 n = natReprGo f2 n := by
  intro n
  induction n using Nat.strong_induction_on with
  | _ n ih =>
    intro f1 f2 h1 h2
    match f1, f2 with
    | g1 + 1, g2 + 1 =>
      show (if n < 10 then [48 + n] else natReprGo g1 (n / 10) ++ [48 + n % 10]) =
        (if n < 10 then [48 + n] else natReprGo g2 (n / 10) ++ [48 + n % 10])
      by_cases hn : n < 10
      · rw [if_pos hn, if_pos hn]
      · rw [if_neg hn, if_neg hn,
          ih (n / 10) (Nat.div_lt_self (by omega) (by omega)) g1 g2 (by omega) (by omega)]

/-- Unfolding equation for `natRepr`, mirroring the recursive decimal
rendering of an integer. -/
lemma natRepr_eq (n : Nat) :
    natRepr n = if n < 10 then [48 + n] else natRepr (n / 10) ++ [48 + n % 10] := by
  show natReprGo (n + 1) n = _
  by_cases hn : n < 10
  · simp [natReprGo, hn]
  · show (if n < 10 then [48 + n] else natReprGo n (n / 10) ++ [48 + n % 10]) = _
    rw [if_neg hn, if_neg hn]
    congr 1
    exact natReprGo_congr (n / 10) n (n / 10 + 1)
      (Nat.div_lt_self (by omega) (by omega)) (by omega)

lemma natRepr_all_digits (n : Nat) : (natRepr n).all isDigitCh = true := by
  induction n using Nat.strong_induction_on with
  | _ n ih =>
    rw [natRepr_eq]
    by_cases hn : n < 10
    · rw [if_pos hn]
      simp only [List.all_cons, List.all_nil, Bool.and_true, isDigitCh]
      simp only [Bool.and_eq_true, decide_eq_true_eq]
      omega
    · rw [if_neg hn, List.all_append]
      rw [ih (n / 10) (Nat.div_lt_self (by omega) (by omega))]
      simp only [Bool.true_and, List.all_cons, List.all_nil, Bool.and_true, isDigitCh]
      simp only [Bool.and_eq_true, decide_eq_true_eq]
      have := Nat.mod_lt n (Nat.lt_of_lt_of_le Nat.zero_lt_one (by omega) : 0 < 10)
      omega

lemma natRepr_ne_nil (n : Nat) : natRepr n ≠ [] := by
  rw [natRepr_eq]
  by_cases hn : n < 10
  · rw [if_pos hn]
    exact List.cons_ne_nil _ _
  · rw [if_neg hn]
    exact List.append_ne_nil_of_right_ne_nil _ (List.cons_ne_nil _ _)

/-- Python `str(...)` on an integer: decimal digits, with a leading
minus sign (code point 45) for negative values. -/
def intRepr (i : Int) : PyStr :=
  if i < 0 then 45 :: natRepr i.natAbs else natRepr i.toNat

/-- Python `s.zfill(w)`: pad with zeros on the left to width `w`,
inserting the zeros after a leading sign character if there is one. -/
def pyZfill (s : PyStr) (w : Nat) : PyStr :=
  match s with
  | c :: rest =>
      if c = 43 || c = 45 then
        c :: (List.replicate (w - 1 - rest.length) 48 ++ rest)
      else List.replicate (w - s.length) 48 ++ s
  | [] => List.replicate w 48

end Huntcore

/-! ## `Case Toggle.pulldown/Sheet Name Text.pushbutton/script.py` -/

namespace Huntcore

/-- `toggle_case(sheet_name)` from the sheet-name case-toggle script:
if the name `isupper()` it is capitalized, otherwise it is uppercased. -/
def toggle_case (s : PyStr) : PyStr :=
  if pyIsUpper s then pyCapitalize s else pyUpper s

lemma isCasedCh_toUpCh (c : Nat) : isCasedCh (toUpCh c) = isCasedCh c := by
  simp only [isCasedCh, toUpCh, isLowerCh, isUpperCh]
  split_ifs with h <;>
    simp only [Bool.and_eq_true, decide_eq_true_eq] at h <;>
    rw [Bool.eq_iff_iff] <;>
    simp only [Bool.or_eq_true, Bool.and_eq_true, decide_eq_true_eq] <;>
    omega

lemma isUpperCh_toUpCh (c : Nat) : isUpperCh (toUpCh c) = isCasedCh c := by
  simp only [isCasedCh, toUpCh, isLowerCh, isUpperCh]
  split_ifs with h <;>
    simp only [Bool.and_eq_true, decide_eq_true_eq] at h <;>
    rw [Bool.eq_iff_iff] <;>
    simp only [Bool.or_eq_true, Bool.and_eq_true, decide_eq_true_eq] <;>
    omega

lemma toUpCh_toUpCh (c : Nat) : toUpCh (toUpCh c) = toUpCh c := by
  simp only [toUpCh, isLowerCh]
  split_ifs with h h2 <;>
    simp only [Bool.and_eq_true, decide_eq_true_eq] at * <;> omega

lemma toLoCh_toLoCh (c : Nat) : toLoCh (toLoCh c) = toLoCh c := by
  simp only [toLoCh, isUpperCh]
  split_ifs with h h2 <;>
    simp only [Bool.and_eq_true, decide_eq_true_eq] at * <;> omega

lemma toUpCh_toLoCh (c : Nat) : toUpCh (toLoCh c) = toUpCh c := by
  simp only [toUpCh, toLoCh, isLowerCh, isUpperCh]
  split_ifs with h h2 h3 <;>
    simp only [Bool.and_eq_true, decide_eq_true_eq] at * <;> omega

lemma toLoCh_toUpCh (c : Nat) : toLoCh (toUpCh c) = toLoCh c := by
  simp only [toUpCh, toLoCh, isLowerCh, isUpperCh]
  split_ifs with h h2 h3 <;>
    simp only [Bool.and_eq_true, decide_eq_true_eq] at * <;> omega

lemma toUpCh_of_not_cased (c : Nat) (h : isCasedCh c = false) : toUpCh c = c := by
  simp only [isCasedCh, isLowerCh, isUpperCh, Bool.or_eq_false_iff,
    Bool.and_eq_false_iff, decide_eq_false_iff_not, not_le] at h
  simp only [toUpCh, isLowerCh]
  rw [if_neg]
  simp only [Bool.and_eq_true, decide_eq_true_eq, not_and, not_le]
  omega

lemma toUpCh_of_upper (c : Nat) (h : isUpperCh c = true) : toUpCh c = c := by
  simp only [isUpperCh, Bool.and_eq_true, decide_eq_true_eq] at h
  simp only [toUpCh, isLowerCh]
  rw [if_neg]
  simp only [Bool.and_eq_true, decide_eq_true_eq, not_and, not_le]
  omega

lemma any_congr_mem {α : Type} {p q : α → Bool} (l : List α)
    (h : ∀ a ∈ l, p a = q a) : l.any p = l.any q := by
  induction l with
  | nil => rfl
  | cons x xs ih =>
    simp only [List.any_cons]
    rw [h x (List.mem_cons_self x xs), ih (fun a ha => h a (List.mem_cons_of_mem x ha))]

lemma pyUpper_pyUpper (s : PyStr) : pyUpper (pyUpper s) = pyUpper s := by
  unfold pyUpper
  rw [List.map_map]
  exact List.map_congr_left (fun c _ => toUpCh_toUpCh c)

lemma pyUpper_pyCapitalize (s : PyStr) : pyUpper (pyCapitalize s) = pyUpper s := by
  cases s with
  | nil => rfl
  | cons c rest =>
    unfold pyUpper pyCapitalize
    simp only [List.map_cons, List.map_map, List.cons.injEq]
    exact ⟨toUpCh_toUpCh c, List.map_congr_left (fun x _ => toUpCh_toLoCh x)⟩

lemma pyCapitalize_pyCapitalize (s : PyStr) :
    pyCapitalize (pyCapitalize s) = pyCapitalize s := by
  cases s with
  | nil => rfl
  | cons c rest =>
    unfold pyCapitalize
    simp only [List.map_map, List.cons.injEq]
    exact ⟨toUpCh_toUpCh c, List.map_congr_left (fun x _ => toLoCh_toLoCh x)⟩

lemma pyUpper_of_pyIsUpper (s : PyStr) (h : pyIsUpper s = true) : pyUpper s = s := by
  unfold pyIsUpper at h
  simp only [Bool.and_eq_true, List.all_eq_true] at h
  unfold pyUpper
  have hmap : ∀ c ∈ s, toUpCh c = c := by
    intro c hc
    have := h.2 c hc
    simp only [Bool.or_eq_true, Bool.not_eq_true'] at this
    cases this with
    | inl hnc => exact toUpCh_of_not_cased c hnc
    | inr hup => exact toUpCh_of_upper c hup
  calc s.map toUpCh = s.map id := List.map_congr_left (fun c hc => hmap c hc)
  _ = s := List.map_id s

lemma pyUpper_of_no_cased (s : PyStr) (h : s.any isCasedCh = false) : pyUpper s = s := by
  unfold pyUpper
  have hmap : ∀ c ∈ s, toUpCh c = c := by
    intro c hc
    apply toUpCh_of_not_cased
    by_contra hcon
    simp only [Bool.not_eq_false] at hcon
    have hany : s.any isCasedCh = true := List.any_eq_true.mpr ⟨c, hc, hcon⟩
    rw [hany] at h
    exact Bool.noConfusion h
  calc s.map toUpCh = s.map id := List.map_congr_left (fun c hc => hmap c hc)
  _ = s := List.map_id s

lemma pyIsUpper_pyUpper (s : PyStr) : pyIsUpper (pyUpper s) = s.any isCasedCh := by
  unfold pyIsUpper pyUpper
  rw [List.any_map, List.all_map]
  have h1 : s.any (isCasedCh ∘ toUpCh) = s.any isCasedCh :=
    any_congr_mem s (fun c _ => isCasedCh_toUpCh c)
  have h2 : s.all ((fun c => !isCasedCh c || isUpperCh c) ∘ toUpCh) = true := by
    rw [List.all_eq_true]
    intro c _
    simp only [Function.comp_apply, isCasedCh_toUpCh, isUpperCh_toUpCh]
    cases hc : isCasedCh c <;> simp [hc]
  rw [h1, h2, Bool.and_true]

lemma pyIsUpper_eq_false_of_no_cased (s : PyStr) (h : s.any isCasedCh = false) :
    pyIsUpper s = false := by
  unfold pyIsUpper
  rw [h, Bool.false_and]

end Huntcore

namespace Huntcore

lemma toLoCh_of_not_cased (c : Nat) (h : isCasedCh c = false) : toLoCh c = c := by
  simp only [isCasedCh, isLowerCh, isUpperCh, Bool.or_eq_false_iff,
    Bool.and_eq_false_iff, decide_eq_false_iff_not, not_le] at h
  simp only [toLoCh, isUpperCh]
  rw [if_neg]
  simp only [Bool.and_eq_true, decide_eq_true_eq, not_and, not_le]
  omega

lemma isCasedCh_toLoCh (c : Nat) : isCasedCh (toLoCh c) = isCasedCh c := by
  simp only [isCasedCh, toLoCh, isLowerCh, isUpperCh]
  split_ifs with h <;>
    simp only [Bool.and_eq_true, decide_eq_true_eq] at h <;>
    rw [Bool.eq_iff_iff] <;>
    simp only [Bool.or_eq_true, Bool.and_eq_true, decide_eq_true_eq] <;>
    omega

lemma isLowerCh_toLoCh (c : Nat) : isLowerCh (toLoCh c) = isCasedCh c := by
  simp only [isCasedCh, toLoCh, isLowerCh, isUpperCh]
  split_ifs with h <;>
    simp only [Bool.and_eq_true, decide_eq_true_eq] at h <;>
    rw [Bool.eq_iff_iff] <;>
    simp only [Bool.or_eq_true, Bool.and_eq_true, decide_eq_true_eq] <;>
    omega

lemma not_upper_of_lower (c : Nat) (h : isLowerCh c = true) : isUpperCh c = false := by
  simp only [isLowerCh, Bool.and_eq_true, decide_eq_true_eq] at h
  simp only [isUpperCh, Bool.and_eq_false_iff, decide_eq_false_iff_not, not_le]
  omega

/-- A string that is `isupper()` and whose `capitalize()` is still
`isupper()` is a fixed point of `capitalize()`. -/
lemma pyCapitalize_eq_self (t : PyStr) (ht : pyIsUpper t = true)
    (hu : pyIsUpper (pyCapitalize t) = true) : pyCapitalize t = t := by
  cases t with
  | nil => rfl
  | cons c rest =>
    show toUpCh c :: rest.map toLoCh = c :: rest
    unfold pyIsUpper at ht hu
    simp only [Bool.and_eq_true, List.all_eq_true] at ht hu
    have hrest : ∀ x ∈ rest, isCasedCh x = false := by
      intro x hx
      by_contra hcon
      simp only [Bool.not_eq_false] at hcon
      have hmem : toLoCh x ∈ pyCapitalize (c :: rest) := by
        unfold pyCapitalize
        exact List.mem_cons_of_mem _ (List.mem_map_of_mem toLoCh hx)
      have hupx := hu.2 (toLoCh x) hmem
      simp only [Bool.or_eq_true, Bool.not_eq_true'] at hupx
      cases hupx with
      | inl hnc =>
        rw [isCasedCh_toLoCh] at hnc
        rw [hcon] at hnc
        exact Bool.noConfusion hnc
      | inr hup =>
        have hlo : isLowerCh (toLoCh x) = true := by rw [isLowerCh_toLoCh, hcon]
        rw [not_upper_of_lower _ hlo] at hup
        exact Bool.noConfusion hup
    have hheadfix : toUpCh c = c := by
      have := ht.2 c (List.mem_cons_self c rest)
      simp only [Bool.or_eq_true, Bool.not_eq_true'] at this
      cases this with
      | inl hnc => exact toUpCh_of_not_cased c hnc
      | inr hup => exact toUpCh_of_upper c hup
    rw [hheadfix]
    congr 1
    calc rest.map toLoCh = rest.map id :=
          List.map_congr_left (fun x hx => toLoCh_of_not_cased x (hrest x hx))
    _ = rest := List.map_id rest

/-- C10: the sheet-name case toggle stabilises into a two-cycle.  For
every string `s`, `toggle_case (toggle_case (toggle_case s)) =
toggle_case s`; every output of `toggle_case` is either the uppercased
or the capitalized form of its input; and a string with no cased
characters is a fixed point of `toggle_case`. -/
theorem toggle_case_two_cycle :
    (∀ s : PyStr, toggle_case (toggle_case (toggle_case s)) = toggle_case s)
    ∧ (∀ s : PyStr, toggle_case s = pyUpper s ∨ toggle_case s = pyCapitalize s)
    ∧ (∀ s : PyStr, (∀ c ∈ s, isCasedCh c = false) → toggle_case s = s) := by
  refine ⟨?_, ?_, ?_⟩
  · intro s
    by_cases h1 : pyIsUpper s = true
    · have ht1 : toggle_case s = pyCapitalize s := by
        unfold toggle_case
        rw [if_pos h1]
      rw [ht1]
      by_cases h2 : pyIsUpper (pyCapitalize s) = true
      · have hfix : toggle_case (pyCapitalize s) = pyCapitalize s := by
          unfold toggle_case
          rw [if_pos h2, pyCapitalize_pyCapitalize]
        rw [hfix, hfix]
      · have hstep : toggle_case (pyCapitalize s) = s := by
          unfold toggle_case
          rw [if_neg h2, pyUpper_pyCapitalize, pyUpper_of_pyIsUpper s h1]
        rw [hstep]
        unfold toggle_case
        rw [if_pos h1]
    · have ht1 : toggle_case s = pyUpper s := by
        unfold toggle_case
        rw [if_neg h1]
      rw [ht1]
      by_cases hany : s.any isCasedCh = true
      · have h2 : pyIsUpper (pyUpper s) = true := by rw [pyIsUpper_pyUpper]; exact hany
        have ht2 : toggle_case (pyUpper s) = pyCapitalize (pyUpper s) := by
          unfold toggle_case
          rw [if_pos h2]
        rw [ht2]
        by_cases h3 : pyIsUpper (pyCapitalize (pyUpper s)) = true
        · have := pyCapitalize_eq_self (pyUpper s) h2 h3
          unfold toggle_case
          rw [if_pos h3, pyCapitalize_pyCapitalize, this]
        · unfold toggle_case
          rw [if_neg h3, pyUpper_pyCapitalize, pyUpper_pyUpper]
      · have hnc : s.any isCasedCh = false := by
          cases hananother : s.any isCasedCh with
          | true => exact absurd hananother hany
          | false => rfl
        rw [pyUpper_of_no_cased s hnc]
        have hfix : toggle_case s = s := by
          unfold toggle_case
          rw [if_neg h1, pyUpper_of_no_cased s hnc]
        rw [hfix, hfix]
  · intro s
    unfold toggle_case
    by_cases h : pyIsUpper s = true
    · right
      rw [if_pos h]
    · left
      rw [if_neg h]
  · intro s h
    have hnc : s.any isCasedCh = false := by
      cases hany : s.any isCasedCh with
      | true =>
        obtain ⟨c, hc, hcased⟩ := List.any_eq_true.mp hany
        rw [h c hc] at hcased
        exact Bool.noConfusion hcased
      | false => rfl
    unfold toggle_case
    rw [if_neg (by rw [pyIsUpper_eq_false_of_no_cased s hnc]; exact Bool.noConfusion),
      pyUpper_of_no_cased s hnc]

/-- Witness for C10: the concrete sheet name `ABC 12` cycles
`Abc 12`, `ABC 12`, `Abc 12`, and the uncased string `12-3` is fixed. -/
theorem toggle_case_two_cycle_witness :
    toggle_case (toggle_case (toggle_case (strOf "ABC 12"))) = toggle_case (strOf "ABC 12")
    ∧ ((∀ c ∈ strOf "12-3", isCasedCh c = false) ∧ toggle_case (strOf "12-3") = strOf "12-3") :=
  ⟨toggle_case_two_cycle.1 (strOf "ABC 12"),
   by decide,
   toggle_case_two_cycle.2.2 (strOf "12-3") (by decide)⟩

end Huntcore

/-! ## `Viewport Renumber.pushbutton/script.py`: detail numbering -/

namespace Huntcore

/-- Fuelled worker for `int_to_letters`. -/
def intToLettersGo : Nat → Nat → PyStr
  | 0, _ => []
  | _ + 1, 0 => []
  | fuel + 1, m + 1 => intToLettersGo fuel (m / 26) ++ [65 + m % 26]

/-- `int_to_letters(n)` from the viewport-renumber script: bijective
base-26 rendering with digits `A`..`Z`, built by repeated
`divmod(n - 1, 26)`. -/
def int_to_letters (n : Nat) : PyStr := intToLettersGo (n + 1) n

lemma intToLettersGo_congr : ∀ n f1 f2 : Nat, n < f1 → n < f2 →
    intToLettersGo f1 n = intToLettersGo f2 n := by
  intro n
  induction n using Nat.strong_induction_on with
  | _ n ih =>
    intro f1 f2 h1 h2
    match f1, f2 with
    | g1 + 1, g2 + 1 =>
      match n with
      | 0 => rfl
      | m + 1 =>
        show intToLettersGo g1 (m / 26) ++ _ = intToLettersGo g2 (m / 26) ++ _
        rw [ih (m / 26) (by omega) g1 g2 (by omega) (by omega)]

/-- Unfolding equation for `int_to_letters`, matching the source loop
`while n > 0: n, remainder = divmod(n - 1, 26); result = chr(65 + remainder) + result`. -/
lemma int_to_letters_eq (n : Nat) :
    int_to_letters n =
      if n = 0 then [] else int_to_letters ((n - 1) / 26) ++ [65 + (n - 1) % 26] := by
  match n with
  | 0 => rfl
  | m + 1 =>
    show intToLettersGo (m + 2) (m + 1) = _
    rw [if_neg (by omega)]
    show intToLettersGo (m + 1) (m / 26) ++ [65 + m % 26] = _
    have : (m + 1 - 1) = m := by omega
    rw [this]
    congr 1
    exact intToLettersGo_congr (m / 26) (m + 1) (m / 26 + 1) (by omega) (by omega)

/-- The base-26 value `sum((ord(c.upper()) - 64) * (26 ** i) for i, c in
enumerate(reversed(start_str)))` computed by the letters-only branch of
`generate_alphanumeric`. -/
def lettersBase (s : PyStr) : Nat :=
  (s.reverse.enum.map (fun p => (toUpCh p.2 - 64) * 26 ^ p.1)).sum

lemma enumFrom_pow_sum (g : Nat → Nat) :
    ∀ (l : List Nat) (k : Nat),
      ((l.enumFrom k).map (fun p => g p.2 * 26 ^ p.1)).sum =
        26 ^ k * ((l.enum.map (fun p => g p.2 * 26 ^ p.1)).sum) := by
  intro l
  induction l with
  | nil => intro k; simp
  | cons x xs ih =>
    intro k
    have hzero := ih 1
    simp only [List.enumFrom_cons, List.map_cons, List.sum_cons, List.enum_cons] at *
    rw [ih (k + 1), hzero]
    ring

lemma lettersBase_append (s : PyStr) (c : Nat) :
    lettersBase (s ++ [c]) = (toUpCh c - 64) + 26 * lettersBase s := by
  unfold lettersBase
  rw [List.reverse_append]
  simp only [List.reverse_cons, List.reverse_nil, List.nil_append, List.singleton_append,
    List.enum_cons, List.map_cons, List.sum_cons, pow_zero, mul_one]
  rw [show List.enumFrom 1 s.reverse = List.enumFrom (0 + 1) s.reverse from rfl]
  rw [enumFrom_pow_sum (fun c => toUpCh c - 64) s.reverse 1]
  ring

/-- Does `start_str` match `^\d+$`? -/
def matchesDigits (s : PyStr) : Bool := !s.isEmpty && s.all isDigitCh

/-- Does `start_str` match `^[A-Z]+$` with `re.I`? -/
def matchesLetters (s : PyStr) : Bool := !s.isEmpty && s.all isAlphaCh

/-- Groups of the regex `^([A-Z]+)(\d+)$` (case-insensitive): the
maximal letter prefix and the digit tail, when the string has exactly
that shape. -/
def splitLettersDigits (s : PyStr) : Option (PyStr × PyStr) :=
  let pre := s.takeWhile isAlphaCh
  let rest := s.dropWhile isAlphaCh
  if !pre.isEmpty && !rest.isEmpty && rest.all isDigitCh then some (pre, rest) else none

/-- `generate_alphanumeric(start_str, index)` from the viewport-renumber
script: numeric strings are incremented as integers, letter strings as
bijective base-26 numerals, letter-prefix/digit-suffix strings keep the
uppercased prefix and increment the suffix, and anything else gets the
index appended (except at index 0). -/
def generate_alphanumeric (s : PyStr) (index : Nat) : PyStr :=
  if matchesDigits s then natRepr (digitsVal s + index)
  else if matchesLetters s then int_to_letters (lettersBase s + index)
  else
    match splitLettersDigits s with
    | some (pre, num) => pyUpper pre ++ natRepr (digitsVal num + index)
    | none => if index = 0 then s else s ++ natRepr index

lemma not_alpha_of_digit (c : Nat) (h : isDigitCh c = true) : isAlphaCh c = false := by
  simp only [isDigitCh, Bool.and_eq_true, decide_eq_true_eq] at h
  simp only [isAlphaCh, isUpperCh, isLowerCh, Bool.or_eq_false_iff,
    Bool.and_eq_false_iff, decide_eq_false_iff_not, not_le]
  omega

lemma not_digit_of_alpha (c : Nat) (h : isAlphaCh c = true) : isDigitCh c = false := by
  simp only [isAlphaCh, isUpperCh, isLowerCh, Bool.or_eq_true,
    Bool.and_eq_true, decide_eq_true_eq] at h
  simp only [isDigitCh, Bool.and_eq_false_iff, decide_eq_false_iff_not, not_le]
  omega

lemma takeWhile_append_of_all {p : Nat → Bool} (xs ys : List Nat)
    (hall : xs.all p = true) :
    (xs ++ ys).takeWhile p = xs ++ ys.takeWhile p := by
  induction xs with
  | nil => rfl
  | cons x rest ih =>
    simp only [List.all_cons, Bool.and_eq_true] at hall
    simp only [List.cons_append, List.takeWhile_cons, hall.1, ih hall.2]
    simp

lemma dropWhile_append_of_all {p : Nat → Bool} (xs ys : List Nat)
    (hall : xs.all p = true) :
    (xs ++ ys).dropWhile p = ys.dropWhile p := by
  induction xs with
  | nil => rfl
  | cons x rest ih =>
    simp only [List.all_cons, Bool.and_eq_true] at hall
    simp only [List.cons_append, List.dropWhile_cons, hall.1, ih hall.2]
    simp

lemma splitLettersDigits_of_shape (pre num : PyStr)
    (hpre : pre ≠ []) (hprea : pre.all isAlphaCh = true)
    (hnum : num ≠ []) (hnumd : num.all isDigitCh = true) :
    splitLettersDigits (pre ++ num) = some (pre, num) := by
  unfold splitLettersDigits
  have htake : (pre ++ num).takeWhile isAlphaCh = pre := by
    rw [takeWhile_append_of_all pre num hprea]
    match num, hnum with
    | n :: rest, _ =>
      simp only [List.all_cons, Bool.and_eq_true] at hnumd
      rw [List.takeWhile_cons, not_alpha_of_digit n hnumd.1]
      simp
  have hdrop : (pre ++ num).dropWhile isAlphaCh = num := by
    rw [dropWhile_append_of_all pre num hprea]
    match num, hnum with
    | n :: rest, _ =>
      simp only [List.all_cons, Bool.and_eq_true] at hnumd
      rw [List.dropWhile_cons, not_alpha_of_digit n hnumd.1]
      simp
  simp only [htake, hdrop]
  rw [if_pos]
  simp only [Bool.and_eq_true, Bool.not_eq_true', List.isEmpty_eq_false]
  exact ⟨⟨hpre, hnum⟩, hnumd⟩

end Huntcore

namespace Huntcore

lemma toUpCh_mem_upper_range (c : Nat) (h : isAlphaCh c = true) :
    65 ≤ toUpCh c ∧ toUpCh c ≤ 90 := by
  simp only [isAlphaCh, isUpperCh, isLowerCh, Bool.or_eq_true,
    Bool.and_eq_true, decide_eq_true_eq] at h
  simp only [toUpCh, isLowerCh]
  split_ifs with hl <;>
    simp only [Bool.and_eq_true, decide_eq_true_eq] at * <;> omega

lemma int_to_letters_step (v d : Nat) (h1 : 1 ≤ d) (h2 : d ≤ 26) :
    int_to_letters (26 * v + d) = int_to_letters v ++ [64 + d] := by
  rw [int_to_letters_eq]
  rw [if_neg (by omega)]
  have hq : (26 * v + d - 1) / 26 = v := by omega
  have hr : (26 * v + d - 1) % 26 = d - 1 := by omega
  rw [hq, hr]
  have h65 : 65 + (d - 1) = 64 + d := by omega
  rw [h65]

/-- `int_to_letters` is a left inverse of the base-26 value computed by
the letters branch: the branch at offset 0 reproduces the uppercased
start string. -/
lemma int_to_letters_lettersBase (s : PyStr) (h : s.all isAlphaCh = true) :
    int_to_letters (lettersBase s) = pyUpper s := by
  induction s using List.reverseRecOn with
  | nil => rfl
  | append_singleton xs c ih =>
    rw [List.all_append] at h
    simp only [List.all_cons, List.all_nil, Bool.and_true, Bool.and_eq_true] at h
    have hc := toUpCh_mem_upper_range c h.2
    rw [lettersBase_append]
    rw [show (toUpCh c - 64) + 26 * lettersBase xs = 26 * lettersBase xs + (toUpCh c - 64)
      from by omega]
    rw [int_to_letters_step (lettersBase xs) (toUpCh c - 64) (by omega) (by omega)]
    rw [ih h.1]
    have hco : 64 + (toUpCh c - 64) = toUpCh c := by omega
    rw [hco]
    unfold pyUpper
    rw [List.map_append]
    rfl

lemma matchesDigits_eq_false_of_letters (s : PyStr) (h : matchesLetters s = true) :
    matchesDigits s = false := by
  unfold matchesLetters at h
  unfold matchesDigits
  simp only [Bool.and_eq_true, Bool.not_eq_true', List.isEmpty_eq_false,
    List.all_eq_true] at h
  match s, h.1 with
  | c :: rest, _ =>
    have := not_digit_of_alpha c (h.2 c (List.mem_cons_self c rest))
    simp only [List.all_cons, this, Bool.false_and, Bool.and_false]

/-- C1: `generate_alphanumeric(start_str, index)` behaves as an
alphanumeric increment generator: a numeric start yields the decimal
representation of `int(start_str) + index`; a letters-only start yields
the bijective base-26 value offset by `index` (at offset 0 this is the
uppercased start itself); a letters-then-digits start keeps the
uppercased letter prefix and adds `index` to the numeric suffix; and in
particular 9 at 1 gives 10, Z at 1 gives AA, A1 at 1 gives A2. -/
theorem generate_alphanumeric_spec :
    (∀ (s : PyStr) (i : Nat), matchesDigits s = true →
      generate_alphanumeric s i = natRepr (digitsVal s + i))
    ∧ (∀ (s : PyStr) (i : Nat), matchesLetters s = true →
      generate_alphanumeric s i = int_to_letters (lettersBase s + i))
    ∧ (∀ s : PyStr, matchesLetters s = true →
      generate_alphanumeric s 0 = pyUpper s)
    ∧ (∀ (pre num : PyStr) (i : Nat), pre ≠ [] → pre.all isAlphaCh = true →
      num ≠ [] → num.all isDigitCh = true →
      generate_alphanumeric (pre ++ num) i = pyUpper pre ++ natRepr (digitsVal num + i))
    ∧ generate_alphanumeric (strOf "9") 1 = strOf "10"
    ∧ generate_alphanumeric (strOf "Z") 1 = strOf "AA"
    ∧ generate_alphanumeric (strOf "A1") 1 = strOf "A2" := by
  have hdig : ∀ (s : PyStr) (i : Nat), matchesDigits s = true →
      generate_alphanumeric s i = natRepr (digitsVal s + i) := by
    intro s i h
    unfold generate_alphanumeric
    rw [if_pos h]
  have hlet : ∀ (s : PyStr) (i : Nat), matchesLetters s = true →
      generate_alphanumeric s i = int_to_letters (lettersBase s + i) := by
    intro s i h
    unfold generate_alphanumeric
    rw [if_neg (by rw [matchesDigits_eq_false_of_letters s h]; exact Bool.noConfusion),
      if_pos h]
  refine ⟨hdig, hlet, ?_, ?_, by decide, by decide, by decide⟩
  · intro s h
    rw [hlet s 0 h, Nat.add_zero]
    unfold matchesLetters at h
    simp only [Bool.and_eq_true] at h
    exact int_to_letters_lettersBase s h.2
  · intro pre num i hpre hprea hnum hnumd
    unfold generate_alphanumeric
    have hD : matchesDigits (pre ++ num) = false := by
      unfold matchesDigits
      match pre, hpre with
      | c :: rest, _ =>
        simp only [List.all_cons, Bool.and_eq_true] at hprea
        have := not_digit_of_alpha c hprea.1
        simp only [List.cons_append, List.all_cons, this, Bool.false_and, Bool.and_false]
    have hL : matchesLetters (pre ++ num) = false := by
      unfold matchesLetters
      match num, hnum with
      | n :: rest, _ =>
        simp only [List.all_cons, Bool.and_eq_true] at hnumd
        have hna := not_alpha_of_digit n hnumd.1
        have : (pre ++ n :: rest).all isAlphaCh = false := by
          cases hall : (pre ++ n :: rest).all isAlphaCh with
          | false => rfl
          | true =>
            rw [List.all_eq_true] at hall
            have := hall n (by simp)
            rw [hna] at this
            exact Bool.noConfusion this
        rw [this, Bool.and_false]
    rw [if_neg (by rw [hD]; exact Bool.noConfusion),
      if_neg (by rw [hL]; exact Bool.noConfusion),
      splitLettersDigits_of_shape pre num hpre hprea hnum hnumd]

/-- Witness for C1: the branch statements applied to the concrete
starts 9, Z and A1 at offset 1. -/
theorem generate_alphanumeric_spec_witness :
    generate_alphanumeric (strOf "9") 1 = natRepr (digitsVal (strOf "9") + 1)
    ∧ generate_alphanumeric (strOf "Z") 1 = int_to_letters (lettersBase (strOf "Z") + 1)
    ∧ generate_alphanumeric (strOf "AB") 0 = pyUpper (strOf "AB")
    ∧ generate_alphanumeric (strOf "A" ++ strOf "1") 0 = pyUpper (strOf "A")
        ++ natRepr (digitsVal (strOf "1") + 0) :=
  ⟨generate_alphanumeric_spec.1 (strOf "9") 1 (by decide),
    generate_alphanumeric_spec.2.1 (strOf "Z") 1 (by decide),
    generate_alphanumeric_spec.2.2.1 (strOf "AB") (by decide),
    generate_alphanumeric_spec.2.2.2.1 (strOf "A") (strOf "1") 0
      (by decide) (by decide) (by decide) (by decide)⟩

end Huntcore

/-! ## `Increment Value.pushbutton/script.py` -/

namespace Huntcore

/-- The last maximal digit run of a newline-free segment of text,
returned with the text before and after it; `none` when the segment has
no digit.  Helper for the regex match below: within one line the match
of `(\d+)(?!.*\d)` is exactly the last run. -/
def lineLastRun (s : PyStr) : Option (PyStr × PyStr × PyStr) :=
  let r := s.reverse
  let suf := r.takeWhile (fun c => !isDigitCh c)
  let rest := r.dropWhile (fun c => !isDigitCh c)
  let digs := rest.takeWhile isDigitCh
  let pre := rest.dropWhile isDigitCh
  if digs.isEmpty then none else some (pre.reverse, digs.reverse, suf.reverse)

/-- Fuelled worker for `lastDigitRun`, scanning the string line by
line; the fuel bounds the recursion depth and never runs out when it
exceeds the string length. -/
def searchGo : Nat → PyStr → Option (PyStr × PyStr × PyStr)
  | 0, _ => none
  | fuel + 1, s =>
      let line := s.takeWhile (fun c => !decide (c = 10))
      let rest := s.dropWhile (fun c => !decide (c = 10))
      if line.any isDigitCh then
        match lineLastRun line with
        | some (p, d, u) => some (p, d, u ++ rest)
        | none => none
      else
        match rest with
        | [] => none
        | nl :: tail =>
            match searchGo fuel tail with
            | some (p, d, u) => some (line ++ nl :: p, d, u)
            | none => none

/-- The match of `re.search(r"(\d+)(?!.*\d)", s)`.  In Python `.` does
not match a newline, so the negative lookahead only excludes digits up
to the next newline: the regex matches the last maximal digit run of
the first line of `s` that contains a digit.  Returns the text before
the run, the run, and the text after it; `none` when `s` has no digit
at all. -/
def lastDigitRun (s : PyStr) : Option (PyStr × PyStr × PyStr) :=
  searchGo (s.length + 1) s

/-- `update_value(old_val, increment)` from the increment-value script:
replace the matched number block of the value by the block plus the
increment, zero-filled back to the original block width. -/
def update_value (s : PyStr) (inc : Int) : PyStr :=
  if s.isEmpty then s
  else
    match lastDigitRun s with
    | none => s
    | some (pre, digs, suf) =>
        pre ++ pyZfill (intRepr ((digitsVal digs : Int) + inc)) digs.length ++ suf

lemma lineLastRun_of_shape (pre d suf : PyStr)
    (hd : d ≠ []) (hdd : d.all isDigitCh = true)
    (hsuf : suf.all (fun c => !isDigitCh c) = true)
    (hpre : ∀ c, pre.getLast? = some c → isDigitCh c = false) :
    lineLastRun (pre ++ d ++ suf) = some (pre, d, suf) := by
  unfold lineLastRun
  have hrev : (pre ++ d ++ suf).reverse = suf.reverse ++ (d.reverse ++ pre.reverse) := by
    simp [List.reverse_append]
  have hsufr : suf.reverse.all (fun c => !isDigitCh c) = true := by
    rw [List.all_reverse]
    exact hsuf
  have hddr : d.reverse.all isDigitCh = true := by
    rw [List.all_reverse]
    exact hdd
  have hdcons : ∃ x t, d.reverse = x :: t := by
    match hh : d.reverse with
    | [] =>
      rw [List.reverse_eq_nil_iff] at hh
      exact absurd hh hd
    | x :: t => exact ⟨x, t, rfl⟩
  obtain ⟨x, t, hxt⟩ := hdcons
  have hxdig : isDigitCh x = true := by
    rw [hxt] at hddr
    simp only [List.all_cons, Bool.and_eq_true] at hddr
    exact hddr.1
  have htake1 : (pre ++ d ++ suf).reverse.takeWhile (fun c => !isDigitCh c)
      = suf.reverse := by
    rw [hrev, takeWhile_append_of_all _ _ hsufr, hxt, List.cons_append,
      List.takeWhile_cons]
    simp [hxdig]
  have hdrop1 : (pre ++ d ++ suf).reverse.dropWhile (fun c => !isDigitCh c)
      = d.reverse ++ pre.reverse := by
    rw [hrev, dropWhile_append_of_all _ _ hsufr, hxt, List.cons_append,
      List.dropWhile_cons]
    simp [hxdig]
  have hprer : pre.reverse.takeWhile isDigitCh = [] := by
    match hh : pre.reverse with
    | [] => rfl
    | y :: ys =>
      have hy : pre.getLast? = some y := by
        rw [← List.head?_reverse, hh]
        rfl
      rw [List.takeWhile_cons, hpre y hy]
      simp
  have hpred : pre.reverse.dropWhile isDigitCh = pre.reverse := by
    match hh : pre.reverse with
    | [] => rfl
    | y :: ys =>
      have hy : pre.getLast? = some y := by
        rw [← List.head?_reverse, hh]
        rfl
      rw [List.dropWhile_cons, hpre y hy]
      simp
  have htake2 : (d.reverse ++ pre.reverse).takeWhile isDigitCh = d.reverse := by
    rw [takeWhile_append_of_all _ _ hddr, hprer, List.append_nil]
  have hdrop2 : (d.reverse ++ pre.reverse).dropWhile isDigitCh = pre.reverse := by
    rw [dropWhile_append_of_all _ _ hddr, hpred]
  simp only [htake1, hdrop1, htake2, hdrop2]
  rw [if_neg]
  · simp
  · rw [hxt]
    simp

lemma searchGo_succ (fuel : Nat) (s : PyStr) :
    searchGo (fuel + 1) s =
      (let line := s.takeWhile (fun c => !decide (c = 10))
       let rest := s.dropWhile (fun c => !decide (c = 10))
       if line.any isDigitCh then
         match lineLastRun line with
         | some (p, d, u) => some (p, d, u ++ rest)
         | none => none
       else
         match rest with
         | [] => none
         | nl :: tail =>
             match searchGo fuel tail with
             | some (p, d, u) => some (line ++ nl :: p, d, u)
             | none => none) := rfl

lemma length_dropWhile_le_self (p : Nat → Bool) (l : List Nat) :
    (l.dropWhile p).length ≤ l.length :=
  (List.dropWhile_sublist p).length_le

lemma searchGo_congr :
    ∀ (n : Nat) (s : PyStr), s.length ≤ n → ∀ (f1 f2 : Nat),
      s.length < f1 → s.length < f2 → searchGo f1 s = searchGo f2 s := by
  intro n
  induction n using Nat.strong_induction_on with
  | _ n ih =>
    intro s hs f1 f2 h1 h2
    match f1, f2 with
    | g1 + 1, g2 + 1 =>
      rw [searchGo_succ, searchGo_succ]
      dsimp only
      by_cases hany : (s.takeWhile (fun c => !decide (c = 10))).any isDigitCh = true
      · rw [if_pos hany, if_pos hany]
      · rw [if_neg hany, if_neg hany]
        match hrest : s.dropWhile (fun c => !decide (c = 10)) with
        | [] => rfl
        | nl :: tail =>
          have htl : tail.length < s.length := by
            have hlen := length_dropWhile_le_self (fun c => !decide (c = 10)) s
            rw [hrest] at hlen
            simp only [List.length_cons] at hlen
            omega
          dsimp only
          rw [ih tail.length (by omega) tail le_rfl g1 g2 (by omega) (by omega)]

lemma lastDigitRun_eq_searchGo (s : PyStr) (fuel : Nat) (hf : s.length < fuel) :
    lastDigitRun s = searchGo fuel s :=
  searchGo_congr s.length s le_rfl (s.length + 1) fuel (by omega) hf

lemma takeWhile_append_not_all {p : Nat → Bool} (xs ys : List Nat)
    (h : xs.all p = false) :
    (xs ++ ys).takeWhile p = xs.takeWhile p := by
  induction xs with
  | nil => exact Bool.noConfusion h
  | cons x rest ih =>
    cases hx : p x with
    | false => simp [List.takeWhile_cons, hx]
    | true =>
      have hrest : rest.all p = false := by
        simp only [List.all_cons, hx, Bool.true_and] at h
        exact h
      simp [List.takeWhile_cons, hx, ih hrest]

lemma dropWhile_append_not_all {p : Nat → Bool} (xs ys : List Nat)
    (h : xs.all p = false) :
    (xs ++ ys).dropWhile p = xs.dropWhile p ++ ys := by
  induction xs with
  | nil => exact Bool.noConfusion h
  | cons x rest ih =>
    cases hx : p x with
    | false => simp [List.dropWhile_cons, hx]
    | true =>
      have hrest : rest.all p = false := by
        simp only [List.all_cons, hx, Bool.true_and] at h
        exact h
      simp [List.dropWhile_cons, hx, ih hrest]

lemma dropWhile_head_not_all {p : Nat → Bool} :
    ∀ xs : List Nat, xs.all p = false →
      ∃ h t, xs.dropWhile p = h :: t ∧ p h = false := by
  intro xs
  induction xs with
  | nil => exact fun h => Bool.noConfusion h
  | cons x rest ih =>
    intro h
    simp only [List.all_cons, Bool.and_eq_false_iff] at h
    by_cases hx : p x = true
    · rcases h with h | h
      · rw [hx] at h
        exact Bool.noConfusion h
      · obtain ⟨hd, tl, heq, hp⟩ := ih h
        exact ⟨hd, tl, by rw [List.dropWhile_cons, hx]; exact heq, hp⟩
    · rw [Bool.not_eq_true] at hx
      exact ⟨x, rest, by rw [List.dropWhile_cons, hx]; simp, hx⟩

lemma digit_not_nl (c : Nat) (h : isDigitCh c = true) : (!decide (c = 10)) = true := by
  simp only [isDigitCh, Bool.and_eq_true, decide_eq_true_eq] at h
  simp only [Bool.not_eq_true', decide_eq_false_iff_not]
  omega

lemma any_eq_false_of_all_not {p : Nat → Bool} (l : List Nat)
    (h : l.all (fun c => !p c) = true) : l.any p = false := by
  cases hany : l.any p with
  | false => rfl
  | true =>
    obtain ⟨x, hx, hpx⟩ := List.any_eq_true.mp hany
    have := List.all_eq_true.mp h x hx
    rw [hpx] at this
    exact Bool.noConfusion this

/-- The part of a string up to and including its last newline (empty
when it has none): the earlier lines of the string. -/
def beforeLastNL (s : PyStr) : PyStr :=
  (s.reverse.dropWhile (fun c => !decide (c = 10))).reverse

lemma dropWhile_nil_of_all {p : Nat → Bool} (l : List Nat)
    (h : l.all p = true) : l.dropWhile p = [] := by
  induction l with
  | nil => rfl
  | cons x rest ih =>
    simp only [List.all_cons, Bool.and_eq_true] at h
    rw [List.dropWhile_cons, h.1]
    exact ih h.2

lemma beforeLastNL_decomp (lp pre2 : PyStr) :
    beforeLastNL (lp ++ 10 :: pre2) = lp ++ 10 :: beforeLastNL pre2 := by
  unfold beforeLastNL
  have hrev : (lp ++ 10 :: pre2).reverse = pre2.reverse ++ 10 :: lp.reverse := by
    simp [List.reverse_append]
  rw [hrev]
  by_cases hq2 : pre2.reverse.all (fun c => !decide (c = 10)) = true
  · rw [dropWhile_append_of_all _ _ hq2, List.dropWhile_cons]
    rw [if_neg (by simp)]
    rw [dropWhile_nil_of_all pre2.reverse hq2]
    simp
  · rw [Bool.not_eq_true] at hq2
    rw [dropWhile_append_not_all _ _ hq2, List.reverse_append]
    simp

lemma searchGo_of_shape :
    ∀ (n : Nat) (pre : PyStr), pre.length ≤ n → ∀ (fuel : Nat) (d suf : PyStr),
      (pre ++ d ++ suf).length < fuel →
      d ≠ [] → d.all isDigitCh = true →
      (∀ c, pre.getLast? = some c → isDigitCh c = false) →
      (beforeLastNL pre).all (fun c => !isDigitCh c) = true →
      (suf.takeWhile (fun c => !decide (c = 10))).all (fun c => !isDigitCh c) = true →
      searchGo fuel (pre ++ d ++ suf) = some (pre, d, suf) := by
  intro n
  induction n using Nat.strong_induction_on with
  | _ n ih =>
    intro pre hpn fuel d suf hfuel hd hdd hplast hpreA hsufB
    have hdq : d.all (fun c => !decide (c = 10)) = true := by
      rw [List.all_eq_true]
      intro c hc
      exact digit_not_nl c (List.all_eq_true.mp hdd c hc)
    match fuel, hfuel with
    | f + 1, hf2 =>
      rw [searchGo_succ]
      dsimp only
      by_cases hq : pre.all (fun c => !decide (c = 10)) = true
      · have hline : (pre ++ d ++ suf).takeWhile (fun c => !decide (c = 10))
            = pre ++ d ++ suf.takeWhile (fun c => !decide (c = 10)) := by
          rw [List.append_assoc, takeWhile_append_of_all _ _ hq,
            takeWhile_append_of_all _ _ hdq, ← List.append_assoc]
        have hrest : (pre ++ d ++ suf).dropWhile (fun c => !decide (c = 10))
            = suf.dropWhile (fun c => !decide (c = 10)) := by
          rw [List.append_assoc, dropWhile_append_of_all _ _ hq,
            dropWhile_append_of_all _ _ hdq]
        rw [hline, hrest]
        have hany : (pre ++ d ++ suf.takeWhile (fun c => !decide (c = 10))).any
            isDigitCh = true := by
          rw [List.any_eq_true]
          match d, hd with
          | x :: t, _ =>
            refine ⟨x, ?_, ?_⟩
            · exact List.mem_append_left _ (List.mem_append_right pre
                (List.mem_cons_self x t))
            · simp only [List.all_cons, Bool.and_eq_true] at hdd
              exact hdd.1
        rw [if_pos hany]
        rw [lineLastRun_of_shape pre d (suf.takeWhile (fun c => !decide (c = 10)))
          hd hdd hsufB hplast]
        dsimp only
        rw [List.takeWhile_append_dropWhile]
      · rw [Bool.not_eq_true] at hq
        obtain ⟨hd10, pre2, hdec, hp10⟩ := dropWhile_head_not_all pre hq
        have h10 : hd10 = 10 := by simpa using hp10
        subst h10
        have hpredec : pre = pre.takeWhile (fun c => !decide (c = 10)) ++ 10 :: pre2 := by
          rw [← hdec]
          exact (List.takeWhile_append_dropWhile _ _).symm
        set lp := pre.takeWhile (fun c => !decide (c = 10)) with hlp
        have hlpq : lp.all (fun c => !decide (c = 10)) = true := by
          rw [List.all_eq_true]
          intro c hc
          rw [hlp] at hc
          simpa using List.mem_takeWhile_imp hc
        have hline : (pre ++ d ++ suf).takeWhile (fun c => !decide (c = 10)) = lp := by
          rw [List.append_assoc, takeWhile_append_not_all _ _ hq]
        have hrest : (pre ++ d ++ suf).dropWhile (fun c => !decide (c = 10))
            = 10 :: (pre2 ++ d ++ suf) := by
          rw [List.append_assoc, dropWhile_append_not_all _ _ hq, hdec]
          simp
        rw [hline, hrest]
        have hbl : beforeLastNL pre = lp ++ 10 :: beforeLastNL pre2 := by
          rw [hpredec]
          exact beforeLastNL_decomp lp pre2
        rw [hbl] at hpreA
        rw [List.all_append] at hpreA
        simp only [List.all_cons, Bool.and_eq_true] at hpreA
        have hlpnd : lp.all (fun c => !isDigitCh c) = true := hpreA.1
        have hany : lp.any isDigitCh = false := any_eq_false_of_all_not lp hlpnd
        rw [if_neg (by rw [hany]; exact Bool.noConfusion)]
        have hlen2 : pre2.length < pre.length := by
          have h1 : (pre.dropWhile (fun c => !decide (c = 10))).length ≤ pre.length :=
            length_dropWhile_le_self (fun c => !decide (c = 10)) pre
          rw [hdec] at h1
          simp only [List.length_cons] at h1
          omega
        have hrec : searchGo f (pre2 ++ d ++ suf) = some (pre2, d, suf) := by
          refine ih pre2.length (by omega) pre2 le_rfl f d suf ?_ hd hdd ?_ ?_ hsufB
          · have hlenall : (pre ++ d ++ suf).length < f + 1 := hf2
            simp only [List.length_append] at hlenall ⊢
            omega
          · intro c hc
            have hne : pre2 ≠ [] := by
              intro he
              rw [he] at hc
              exact Option.noConfusion hc
            apply hplast
            rw [hpredec, List.getLast?_append_of_ne_nil lp (by simp), ← hc]
            match pre2, hne with
            | p :: ps, _ => rw [List.getLast?_cons_cons]
          · exact hpreA.2.2
        dsimp only
        rw [hrec]
        dsimp only
        rw [← hpredec]

lemma lastDigitRun_of_shape (pre d suf : PyStr)
    (hd : d ≠ []) (hdd : d.all isDigitCh = true)
    (hplast : ∀ c, pre.getLast? = some c → isDigitCh c = false)
    (hpreA : (beforeLastNL pre).all (fun c => !isDigitCh c) = true)
    (hsufB : (suf.takeWhile (fun c => !decide (c = 10))).all
      (fun c => !isDigitCh c) = true) :
    lastDigitRun (pre ++ d ++ suf) = some (pre, d, suf) := by
  rw [lastDigitRun_eq_searchGo (pre ++ d ++ suf) ((pre ++ d ++ suf).length + 1)
    (by omega)]
  exact searchGo_of_shape pre.length pre le_rfl ((pre ++ d ++ suf).length + 1) d suf
    (by omega) hd hdd hplast hpreA hsufB

lemma pyZfill_natRepr (n w : Nat) :
    pyZfill (natRepr n) w = List.replicate (w - (natRepr n).length) 48 ++ natRepr n := by
  match hh : natRepr n with
  | [] => exact absurd hh (natRepr_ne_nil n)
  | c :: rest =>
    have hall := natRepr_all_digits n
    rw [hh] at hall
    simp only [List.all_cons, Bool.and_eq_true] at hall
    have hc : isDigitCh c = true := hall.1
    simp only [isDigitCh, Bool.and_eq_true, decide_eq_true_eq] at hc
    show (if (decide (c = 43) || decide (c = 45)) = true then
        c :: (List.replicate (w - 1 - rest.length) 48 ++ rest)
      else List.replicate (w - (c :: rest).length) 48 ++ (c :: rest)) = _
    rw [if_neg]
    simp only [Bool.or_eq_true, decide_eq_true_eq, not_or]
    omega

/-- C2, counterexample: the negative lookahead of `(\d+)(?!.*\d)` does
not cross a newline, so on the two-line value `1\n2` the program
increments the run `1` of the first line and returns `2\n2`, not the
result `1\n3` of replacing the last digit run of the whole string as
the claim prescribes. -/
theorem update_value_newline_counterexample :
    update_value (strOf "1\n2") 1 = strOf "2\n2"
    ∧ strOf "1\n2" = strOf "1\n" ++ strOf "2" ++ []
    ∧ (strOf "2").all isDigitCh = true
    ∧ ([] : PyStr).all (fun c => !isDigitCh c) = true
    ∧ (∀ c, (strOf "1\n").getLast? = some c → isDigitCh c = false)
    ∧ strOf "1\n" ++ pyZfill (intRepr ((digitsVal (strOf "2") : Int) + 1))
        (strOf "2").length ++ [] = strOf "1\n3"
    ∧ update_value (strOf "1\n2") 1 ≠ strOf "1\n3" := by
  refine ⟨by decide, by decide, by decide, by decide, ?_, by decide, by decide⟩
  intro c hc
  have : c = 10 := by
    have h : (strOf "1\n").getLast? = some 10 := by decide
    rw [h] at hc
    exact (Option.some.inj hc).symm
  subst this
  decide

/-- C2, amended: `update_value` replaces the last maximal digit run `d`
of the first digit-containing line of the value (the lookahead
`(?!.*\d)` stops at a newline) with `str(int(d) + k)` zero-filled to at
least `len(d)` characters, keeping everything before and after the run;
when the new number is nonnegative the zero-fill is a plain left pad
with zeros; `update_value("4B26", 1) = "4B27"`. -/
theorem update_value_line_spec :
    (∀ (pre d suf : PyStr) (k : Int), d ≠ [] → d.all isDigitCh = true →
      (suf.takeWhile (fun c => !decide (c = 10))).all (fun c => !isDigitCh c) = true →
      (∀ c, pre.getLast? = some c → isDigitCh c = false) →
      (beforeLastNL pre).all (fun c => !isDigitCh c) = true →
      update_value (pre ++ d ++ suf) k =
        pre ++ pyZfill (intRepr ((digitsVal d : Int) + k)) d.length ++ suf)
    ∧ (∀ (pre d suf : PyStr) (k : Int), d ≠ [] → d.all isDigitCh = true →
      (suf.takeWhile (fun c => !decide (c = 10))).all (fun c => !isDigitCh c) = true →
      (∀ c, pre.getLast? = some c → isDigitCh c = false) →
      (beforeLastNL pre).all (fun c => !isDigitCh c) = true →
      0 ≤ (digitsVal d : Int) + k →
      update_value (pre ++ d ++ suf) k =
        pre ++ (List.replicate
            (d.length - (natRepr ((digitsVal d : Int) + k).toNat).length) 48
          ++ natRepr ((digitsVal d : Int) + k).toNat) ++ suf)
    ∧ update_value (strOf "4B26") 1 = strOf "4B27" := by
  have hmain : ∀ (pre d suf : PyStr) (k : Int), d ≠ [] → d.all isDigitCh = true →
      (suf.takeWhile (fun c => !decide (c = 10))).all (fun c => !isDigitCh c) = true →
      (∀ c, pre.getLast? = some c → isDigitCh c = false) →
      (beforeLastNL pre).all (fun c => !isDigitCh c) = true →
      update_value (pre ++ d ++ suf) k =
        pre ++ pyZfill (intRepr ((digitsVal d : Int) + k)) d.length ++ suf := by
    intro pre d suf k hd hdd hsuf hplast hpreA
    unfold update_value
    rw [if_neg]
    · rw [lastDigitRun_of_shape pre d suf hd hdd hplast hpreA hsuf]
    · match d, hd with
      | x :: t, _ =>
        simp
  refine ⟨hmain, ?_, by decide⟩
  intro pre d suf k hd hdd hsuf hplast hpreA hnn
  rw [hmain pre d suf k hd hdd hsuf hplast hpreA]
  have hrep : intRepr ((digitsVal d : Int) + k)
      = natRepr ((digitsVal d : Int) + k).toNat := by
    unfold intRepr
    rw [if_neg (by omega)]
  rw [hrep, pyZfill_natRepr]

/-- Witness for the amended C2: the three-line value `x\n4B26z\n77`
with increment 1; the run `26` on the first digit-containing line is
replaced even though a later line holds more digits. -/
theorem update_value_line_spec_witness :
    update_value (strOf "x\n4B" ++ strOf "26" ++ strOf "z\n77") 1 =
      strOf "x\n4B" ++ pyZfill (intRepr ((digitsVal (strOf "26") : Int) + 1))
        (strOf "26").length ++ strOf "z\n77"
    ∧ update_value (strOf "x\n4B" ++ strOf "26" ++ strOf "z\n77") 1 =
      strOf "x\n4B" ++ (List.replicate
          ((strOf "26").length
            - (natRepr ((digitsVal (strOf "26") : Int) + 1).toNat).length) 48
        ++ natRepr ((digitsVal (strOf "26") : Int) + 1).toNat) ++ strOf "z\n77" := by
  have hplast : ∀ c, (strOf "x\n4B").getLast? = some c → isDigitCh c = false := by
    intro c hc
    have h : (strOf "x\n4B").getLast? = some 66 := by decide
    rw [h] at hc
    rw [(Option.some.inj hc).symm]
    decide
  exact ⟨update_value_line_spec.1 (strOf "x\n4B") (strOf "26") (strOf "z\n77") 1
      (by decide) (by decide) (by decide) hplast (by decide),
    update_value_line_spec.2.1 (strOf "x\n4B") (strOf "26") (strOf "z\n77") 1
      (by decide) (by decide) (by decide) hplast (by decide) (by decide)⟩

end Huntcore

/-! ## `Filters.panel/Linetype Filters.pushbutton/script.py`: color parsing -/

namespace Huntcore

/-- A value passed to `parse_color`: `None`, a list/tuple of integers,
or a string. -/
inductive PyColorVal where
  | vnone : PyColorVal
  | vlist : List Int → PyColorVal
  | vstr : PyStr → PyColorVal

/-- The host `Color(r, g, b)` object, modelled as its three components. -/
structure Color where
  red : Int
  green : Int
  blue : Int
deriving DecidableEq

/-- The capture group of `re.match(r"^#?([0-9A-Fa-f]{6})$", text)`:
six hexadecimal digits after an optional leading `#` (code point 35). -/
def hexGroup (s : PyStr) : Option PyStr :=
  if s.head? = some 35 then
    if s.tail.length = 6 && s.tail.all isHexCh then some s.tail else none
  else
    if s.length = 6 && s.all isHexCh then some s else none

/-- `re.findall(r"\d{1,3}", s)`: the maximal-up-to-three digit chunks
of `s`, scanned left to right. -/
def findallD13 : PyStr → List PyStr
  | [] => []
  | c :: rest =>
      if isDigitCh c then
        match rest with
        | [] => [[c]]
        | c2 :: rest2 =>
            if isDigitCh c2 then
              match rest2 with
              | [] => [[c, c2]]
              | c3 :: rest3 =>
                  if isDigitCh c3 then [c, c2, c3] :: findallD13 rest3
                  else [c, c2] :: findallD13 (c3 :: rest3)
            else [c] :: findallD13 (c2 :: rest2)
      else findallD13 rest

/-- `COLOR_NAME_MAP` from the Linetype Filters script. -/
def COLOR_NAME_MAP : List (PyStr × (Nat × Nat × Nat)) :=
  [(strOf "red", (255, 0, 0)),
   (strOf "blue", (0, 0, 255)),
   (strOf "green", (0, 128, 0)),
   (strOf "black", (0, 0, 0)),
   (strOf "white", (255, 255, 255)),
   (strOf "gray", (128, 128, 128)),
   (strOf "grey", (128, 128, 128)),
   (strOf "yellow", (255, 255, 0)),
   (strOf "cyan", (0, 255, 255)),
   (strOf "magenta", (255, 0, 255))]

/-- `parse_color(value)` from the Linetype Filters script: `None` stays
`None`; a list/tuple yields its first three entries (or `None` when too
short); a string is stripped and matched as hex, then as three digit
runs, then as a named color; otherwise `None`. -/
def parse_color (v : PyColorVal) : Option Color :=
  match v with
  | .vnone => none
  | .vlist xs =>
      match xs with
      | a :: b :: c :: _ => some ⟨a, b, c⟩
      | _ => none
  | .vstr s =>
      let text := pyStrip s
      match hexGroup text with
      | some hx =>
          some ⟨(hexVal (hx.take 2) : Int), (hexVal ((hx.drop 2).take 2) : Int),
            (hexVal ((hx.drop 4).take 2) : Int)⟩
      | none =>
          match findallD13 text with
          | n0 :: n1 :: n2 :: _ =>
              some ⟨(digitsVal n0 : Int), (digitsVal n1 : Int), (digitsVal n2 : Int)⟩
          | _ =>
              match COLOR_NAME_MAP.lookup (pyLower text) with
              | some (r, g, b) => some ⟨(r : Int), (g : Int), (b : Int)⟩
              | none => none

end Huntcore

/-! ## `Tools.panel/Detail Filters.pushbutton/script.py`: color parsing -/

namespace Huntcore

/-- `COLOR_NAME_MAP` from the Detail Filters script. -/
def COLOR_NAME_MAP_dc : List (PyStr × (Nat × Nat × Nat)) :=
  [(strOf "red", (255, 0, 0)),
   (strOf "blue", (0, 0, 255)),
   (strOf "green", (0, 128, 0)),
   (strOf "black", (0, 0, 0)),
   (strOf "white", (255, 255, 255)),
   (strOf "gray", (128, 128, 128)),
   (strOf "grey", (128, 128, 128)),
   (strOf "yellow", (255, 255, 0)),
   (strOf "cyan", (0, 255, 255)),
   (strOf "magenta", (255, 0, 255))]

/-- `parse_color(value)` from the Detail Filters script (the script
carries its own copy of the function). -/
def parse_color_dc (v : PyColorVal) : Option Color :=
  match v with
  | .vnone => none
  | .vlist xs =>
      match xs with
      | a :: b :: c :: _ => some ⟨a, b, c⟩
      | _ => none
  | .vstr s =>
      let text := pyStrip s
      match hexGroup text with
      | some hx =>
          some ⟨(hexVal (hx.take 2) : Int), (hexVal ((hx.drop 2).take 2) : Int),
            (hexVal ((hx.drop 4).take 2) : Int)⟩
      | none =>
          match findallD13 text with
          | n0 :: n1 :: n2 :: _ =>
              some ⟨(digitsVal n0 : Int), (digitsVal n1 : Int), (digitsVal n2 : Int)⟩
          | _ =>
              match COLOR_NAME_MAP_dc.lookup (pyLower text) with
              | some (r, g, b) => some ⟨(r : Int), (g : Int), (b : Int)⟩
              | none => none

end Huntcore

namespace Huntcore

/-- Lowercase-hexadecimal character: what a hex digit becomes under
`str.lower`. -/
def isHexLoCh (c : Nat) : Bool := isDigitCh c || (97 ≤ c && c ≤ 102)

lemma isDigitCh_toLoCh (c : Nat) : isDigitCh (toLoCh c) = isDigitCh c := by
  simp only [toLoCh, isUpperCh, isDigitCh]
  split_ifs with h <;>
    simp only [Bool.and_eq_true, decide_eq_true_eq] at h <;>
    rw [Bool.eq_iff_iff] <;>
    simp only [Bool.and_eq_true, decide_eq_true_eq] <;>
    omega

lemma isHexLoCh_toLoCh_of_hex (c : Nat) (h : isHexCh c = true) :
    isHexLoCh (toLoCh c) = true := by
  simp only [isHexCh, isDigitCh, Bool.or_eq_true, Bool.and_eq_true,
    decide_eq_true_eq] at h
  simp only [isHexLoCh, toLoCh, isUpperCh, isDigitCh]
  split_ifs with hc <;>
    simp only [Bool.and_eq_true, decide_eq_true_eq] at hc <;>
    simp only [Bool.or_eq_true, Bool.and_eq_true, decide_eq_true_eq] <;>
    omega

lemma not_space_of_hex (c : Nat) (h : isHexCh c = true) : isSpaceCh c = false := by
  simp only [isHexCh, isDigitCh, Bool.or_eq_true, Bool.and_eq_true,
    decide_eq_true_eq] at h
  simp only [isSpaceCh, Bool.or_eq_false_iff, decide_eq_false_iff_not]
  omega

lemma dropWhile_eq_self_of_none {p : Nat → Bool} (l : List Nat)
    (h : l.all (fun c => !p c) = true) : l.dropWhile p = l := by
  match l with
  | [] => rfl
  | c :: rest =>
    simp only [List.all_cons, Bool.and_eq_true, Bool.not_eq_true'] at h
    rw [List.dropWhile_cons, h.1]
    simp

lemma pyStrip_eq_self (s : PyStr) (h : s.all (fun c => !isSpaceCh c) = true) :
    pyStrip s = s := by
  unfold pyStrip
  rw [dropWhile_eq_self_of_none s h]
  rw [dropWhile_eq_self_of_none s.reverse (by rw [List.all_reverse]; exact h)]
  exact List.reverse_reverse s

lemma findallD13_nil_of_no_digit (s : PyStr)
    (h : s.all (fun c => !isDigitCh c) = true) : findallD13 s = [] := by
  induction s with
  | nil => rfl
  | cons c rest ih =>
    simp only [List.all_cons, Bool.and_eq_true, Bool.not_eq_true'] at h
    have hstep : findallD13 (c :: rest) = findallD13 rest := by
      rw [findallD13.eq_def]
      simp [h.1]
    rw [hstep]
    exact ih h.2

lemma hexGroup_none_of_lower (t key : PyStr) (hlow : pyLower t = key)
    (h35 : key.head? ≠ some 35)
    (hbad : ¬(key.length = 6 ∧ key.all isHexLoCh = true)) :
    hexGroup t = none := by
  unfold hexGroup
  have hth : t.head? ≠ some 35 := by
    intro hc
    apply h35
    rw [← hlow]
    unfold pyLower
    match t, hc with
    | 35 :: rest, _ => rfl
  rw [if_neg hth, if_neg]
  intro hc
  simp only [Bool.and_eq_true, decide_eq_true_eq] at hc
  apply hbad
  constructor
  · rw [← hlow]
    unfold pyLower
    rw [List.length_map]
    exact hc.1
  · rw [← hlow]
    unfold pyLower
    rw [List.all_map, List.all_eq_true]
    intro c hcm
    exact isHexLoCh_toLoCh_of_hex c (List.all_eq_true.mp hc.2 c hcm)

lemma no_digit_of_lower (t key : PyStr) (hlow : pyLower t = key)
    (hkey : key.all (fun c => !isDigitCh c) = true) :
    t.all (fun c => !isDigitCh c) = true := by
  rw [← hlow] at hkey
  unfold pyLower at hkey
  rw [List.all_map, List.all_eq_true] at hkey
  rw [List.all_eq_true]
  intro c hc
  have := hkey c hc
  simp only [Function.comp_apply, Bool.not_eq_true', isDigitCh_toLoCh] at this
  simp only [Bool.not_eq_true']
  exact this

/-- C3: the shapes accepted by `parse_color` and their values.  `None`
maps to `None`; a three-entry list maps to its components; a string of
six hex digits after an optional `#` maps to its three hex byte pairs;
any other string with at least three runs of one to three digits maps
to the first three runs; a string equal after stripping and lowercasing
to a key of the ten-entry name map yields that key's triple; strings
matching no shape yield `None`. -/
theorem parse_color_spec :
    parse_color .vnone = none
    ∧ (∀ a b c : Int, parse_color (.vlist [a, b, c]) = some ⟨a, b, c⟩)
    ∧ (∀ core : PyStr, core.length = 6 → core.all isHexCh = true →
        parse_color (.vstr core) =
          some ⟨(hexVal (core.take 2) : Int), (hexVal ((core.drop 2).take 2) : Int),
            (hexVal ((core.drop 4).take 2) : Int)⟩
        ∧ parse_color (.vstr (35 :: core)) =
          some ⟨(hexVal (core.take 2) : Int), (hexVal ((core.drop 2).take 2) : Int),
            (hexVal ((core.drop 4).take 2) : Int)⟩)
    ∧ (∀ (s : PyStr) (n0 n1 n2 : PyStr) (rest : List PyStr),
        hexGroup (pyStrip s) = none →
        findallD13 (pyStrip s) = n0 :: n1 :: n2 :: rest →
        parse_color (.vstr s) =
          some ⟨(digitsVal n0 : Int), (digitsVal n1 : Int), (digitsVal n2 : Int)⟩)
    ∧ (∀ (s name : PyStr) (rgb : Nat × Nat × Nat),
        (name, rgb) ∈ COLOR_NAME_MAP → pyLower (pyStrip s) = name →
        parse_color (.vstr s) =
          some ⟨(rgb.1 : Int), (rgb.2.1 : Int), (rgb.2.2 : Int)⟩)
    ∧ (∀ s : PyStr, hexGroup (pyStrip s) = none →
        (findallD13 (pyStrip s)).length < 3 →
        COLOR_NAME_MAP.lookup (pyLower (pyStrip s)) = none →
        parse_color (.vstr s) = none) := by
  refine ⟨rfl, fun a b c => rfl, ?_, ?_, ?_, ?_⟩
  · intro core hlen hhex
    have hns : core.all (fun c => !isSpaceCh c) = true := by
      rw [List.all_eq_true]
      intro c hc
      simp only [Bool.not_eq_true']
      exact not_space_of_hex c (List.all_eq_true.mp hhex c hc)
    have hstrip1 : pyStrip core = core := pyStrip_eq_self core hns
    have hstrip2 : pyStrip (35 :: core) = 35 :: core := by
      apply pyStrip_eq_self
      simp only [List.all_cons, Bool.and_eq_true]
      exact ⟨by decide, hns⟩
    have h35 : core.head? ≠ some 35 := by
      match core, hlen with
      | c :: rest, _ =>
        have hch : isHexCh c = true := by
          simp only [List.all_cons, Bool.and_eq_true] at hhex
          exact hhex.1
        simp only [List.head?_cons]
        intro hc
        have hc2 : c = 35 := by injection hc
        rw [hc2] at hch
        exact absurd hch (by decide)
    have hg1 : hexGroup core = some core := by
      unfold hexGroup
      rw [if_neg h35, if_pos]
      simp only [Bool.and_eq_true, decide_eq_true_eq]
      exact ⟨hlen, hhex⟩
    have hg2 : hexGroup (35 :: core) = some core := by
      unfold hexGroup
      have hcond : (35 :: core).head? = some 35 := rfl
      rw [if_pos hcond]
      show (if core.length = 6 && core.all isHexCh then some core else none) = some core
      rw [if_pos]
      simp only [Bool.and_eq_true, decide_eq_true_eq]
      exact ⟨hlen, hhex⟩
    constructor
    · simp only [parse_color, hstrip1, hg1]
    · simp only [parse_color, hstrip2, hg2]
  · intro s n0 n1 n2 rest hg hfa
    simp only [parse_color, hg, hfa]
  · intro s name rgb hmem hlow
    have hred : ∀ (key : PyStr) (v : Nat × Nat × Nat),
        pyLower (pyStrip s) = key →
        key.head? ≠ some 35 →
        ¬(key.length = 6 ∧ key.all isHexLoCh = true) →
        key.all (fun c => !isDigitCh c) = true →
        COLOR_NAME_MAP.lookup key = some v →
        parse_color (.vstr s) = some ⟨(v.1 : Int), (v.2.1 : Int), (v.2.2 : Int)⟩ := by
      intro key v hlw h35 hbad hnd hlk
      have hgn : hexGroup (pyStrip s) = none :=
        hexGroup_none_of_lower (pyStrip s) key hlw h35 hbad
      have hfn : findallD13 (pyStrip s) = [] :=
        findallD13_nil_of_no_digit (pyStrip s)
          (no_digit_of_lower (pyStrip s) key hlw hnd)
      simp only [parse_color, hgn, hfn, hlw, hlk]
    simp only [COLOR_NAME_MAP, List.mem_cons, List.not_mem_nil, or_false,
      Prod.mk.injEq] at hmem
    rcases hmem with h | h | h | h | h | h | h | h | h | h
    all_goals obtain ⟨h1, h2⟩ := h
    all_goals subst h1
    all_goals subst h2
    all_goals apply hred _ _ hlow <;> decide
  · intro s hg hlen hlk
    match hfa : findallD13 (pyStrip s) with
    | [] => simp only [parse_color, hg, hfa, hlk]
    | [x] => simp only [parse_color, hg, hfa, hlk]
    | [x, y] => simp only [parse_color, hg, hfa, hlk]
    | x :: y :: z :: t =>
      rw [hfa] at hlen
      simp at hlen
      omega

/-- Witness for C3: the hex string `FF0000`, the free-form string
`RGB 255-0-0`, the named color ` ReD `, and the unmatched string
`nope`, each pushed through the matching clause. -/
theorem parse_color_spec_witness :
    parse_color (.vstr (strOf "FF0000")) = some ⟨255, 0, 0⟩
    ∧ parse_color (.vstr (strOf "RGB 255-0-0")) = some ⟨255, 0, 0⟩
    ∧ parse_color (.vstr (strOf " ReD ")) = some ⟨255, 0, 0⟩
    ∧ parse_color (.vstr (strOf "nope")) = none := by
  have h1 := (parse_color_spec.2.2.1 (strOf "FF0000") (by decide) (by decide)).1
  have h2 := parse_color_spec.2.2.2.1 (strOf "RGB 255-0-0")
    (strOf "255") (strOf "0") (strOf "0") [] (by decide) (by decide)
  have h3 := parse_color_spec.2.2.2.2.1 (strOf " ReD ") (strOf "red") (255, 0, 0)
    (by decide) (by decide)
  have h4 := parse_color_spec.2.2.2.2.2 (strOf "nope") (by decide) (by decide) (by decide)
  refine ⟨?_, ?_, ?_, h4⟩
  · rw [h1]
    decide
  · rw [h2]
    decide
  · rw [h3]
    decide

/-- C9: the `parse_color` functions of the Linetype Filters script and
the Detail Filters script are extensionally equal, and their ten-entry
color name maps coincide. -/
theorem parse_color_scripts_agree :
    (∀ v : PyColorVal, parse_color v = parse_color_dc v)
    ∧ COLOR_NAME_MAP = COLOR_NAME_MAP_dc :=
  ⟨fun _ => rfl, rfl⟩

end Huntcore

/-! ## `Filters.panel/Export Filter Values.pushbutton/script.py` -/

namespace Huntcore

/-- A JSON value, as written by `json.dump`; objects keep key order. -/
inductive JVal where
  | jstr : PyStr → JVal
  | jint : Int → JVal
  | jbool : Bool → JVal
  | jlist : List JVal → JVal
  | jobj : List (PyStr × JVal) → JVal

/-- The evaluator of a host `FilterStringRule`, as the exporter
classifies it with `isinstance` checks. -/
inductive StrEvaluator where
  | evEquals : StrEvaluator
  | evContains : StrEvaluator
  | evOther : StrEvaluator
deriving DecidableEq

/-- A rule of a host `ElementParameterFilter`.  `paramName` carries the
result of the host-side `BuiltInParameter` name resolution (or the
integer id rendered as text), which is host data the script only
forwards. -/
inductive RevitRule where
  | stringRule : PyStr → StrEvaluator → PyStr → RevitRule
  | otherRule : RevitRule
deriving DecidableEq

/-- A host element filter, as far as `parse_filter_rules` inspects it. -/
inductive ElemFilter where
  | paramFilter : List RevitRule → ElemFilter
  | otherFilter : ElemFilter
deriving DecidableEq

/-- One `{param, condition, value}` record produced by
`parse_filter_rules`. -/
structure RuleRec where
  param : PyStr
  condition : PyStr
  value : PyStr
deriving DecidableEq

/-- `parse_filter_rules(element_filter)`: every `FilterStringRule` of an
`ElementParameterFilter` becomes a record whose condition is `Equals`,
`Contains` or `Unknown` according to the evaluator; other rules and
other filters contribute nothing. -/
def parse_filter_rules (ef : ElemFilter) : List RuleRec :=
  match ef with
  | .otherFilter => []
  | .paramFilter rules =>
      rules.filterMap (fun r =>
        match r with
        | .stringRule p ev v =>
            some ⟨p,
              (match ev with
               | .evEquals => strOf "Equals"
               | .evContains => strOf "Contains"
               | .evOther => strOf "Unknown"),
              v⟩
        | .otherRule => none)

/-- The override-graphic settings of a filter in a view, as far as
`parse_overrides` reads them. -/
structure OGS where
  halftone : Bool
  projColorValid : Bool
  projColorRed : Nat
  projColorGreen : Nat
  projColorBlue : Nat
  linePatternName : Option PyStr
  transparency : Nat
deriving DecidableEq

/-- `parse_overrides(view, filter_id)`: the override dictionary, with a
key only for each override that is actually set. -/
def parse_overrides (ogs : OGS) : List (PyStr × JVal) :=
  (if ogs.halftone then [(strOf "halftone", JVal.jbool true)] else [])
  ++ (if ogs.projColorValid then
        [(strOf "line_color", JVal.jlist
          [JVal.jint ogs.projColorRed, JVal.jint ogs.projColorGreen,
           JVal.jint ogs.projColorBlue])]
      else [])
  ++ (match ogs.linePatternName with
      | some nm => [(strOf "line_pattern", JVal.jstr nm)]
      | none => [])
  ++ (if ogs.transparency > 0 then
        [(strOf "surface_transparency", JVal.jint ogs.transparency)]
      else [])

/-- One filter of the selected view template, as the export loop sees
it: its name, its categories as already resolved by the host, its
element filter and its overrides in that template. -/
structure FilterInfo where
  name : PyStr
  cats : List PyStr
  efilter : ElemFilter
  ogs : OGS

/-- The JSON record of one `{param, condition, value}` rule. -/
def ruleRecToJson (r : RuleRec) : JVal :=
  .jobj [(strOf "param", .jstr r.param), (strOf "condition", .jstr r.condition),
    (strOf "value", .jstr r.value)]

/-- The export loop: one JSON record per filter returned by the view
template, in that order, with the keys `name`, `categories`, `rules`,
`overrides`. -/
def export_filters (fs : List FilterInfo) : List JVal :=
  fs.map (fun f => .jobj
    [(strOf "name", .jstr f.name),
     (strOf "categories", .jlist (f.cats.map JVal.jstr)),
     (strOf "rules", .jlist ((parse_filter_rules f.efilter).map ruleRecToJson)),
     (strOf "overrides", .jobj (parse_overrides f.ogs))])

/-- The keys of a JSON object; `[]` for other JSON values. -/
def jsonKeys (v : JVal) : List PyStr :=
  match v with
  | .jobj kvs => kvs.map Prod.fst
  | _ => []

end Huntcore

/-! ## `Filters.panel/Linetype Filters.pushbutton/script.py`: rule import -/

namespace Huntcore

/-- One of the two evaluator objects the importer can construct
(`FilterStringEquals` / `FilterStringContains`). -/
inductive BuiltEvaluator where
  | beEquals : BuiltEvaluator
  | beContains : BuiltEvaluator
deriving DecidableEq

/-- A `FilterStringRule` as built by the importer. -/
structure FRule where
  param : PyStr
  evaluator : BuiltEvaluator
  value : PyStr
deriving DecidableEq

/-- The rule-construction loop of `create_filter(name, categories,
rules)`: each record's condition is lowercased and dispatched to
`FilterStringEquals` or `FilterStringContains`; any other condition
raises `Unsupported string condition`.  Records coming from the
exporter always carry a `condition` key, so the `Contains` default of
`r.get("condition", "Contains")` never applies to them; host-side
parameter resolution is not modelled. -/
def create_filter_rules (rs : List RuleRec) : Except PyStr (List FRule) :=
  match rs with
  | [] => .ok []
  | r :: rest =>
      let cond := pyLower r.condition
      if cond = strOf "equals" then
        match create_filter_rules rest with
        | .ok l => .ok (⟨r.param, .beEquals, r.value⟩ :: l)
        | .error e => .error e
      else if cond = strOf "contains" then
        match create_filter_rules rest with
        | .ok l => .ok (⟨r.param, .beContains, r.value⟩ :: l)
        | .error e => .error e
      else .error (strOf "Unsupported string condition: " ++ r.condition)

lemma mem_ite_singleton {α : Type} {x y : α} {b : Prop} [Decidable b]
    (h : y ∈ (if b then [x] else [])) : y = x := by
  split_ifs at h with hb
  · simpa using h
  · simp at h

lemma parse_filter_rules_conditions (ef : ElemFilter) (r : RuleRec)
    (hr : r ∈ parse_filter_rules ef) :
    r.condition = strOf "Equals" ∨ r.condition = strOf "Contains"
      ∨ r.condition = strOf "Unknown" := by
  match ef with
  | .otherFilter => simp [parse_filter_rules] at hr
  | .paramFilter rules =>
    unfold parse_filter_rules at hr
    rw [List.mem_filterMap] at hr
    obtain ⟨rule, _, hmap⟩ := hr
    match rule with
    | .otherRule => exact Option.noConfusion hmap
    | .stringRule p ev v =>
      have hrec := Option.some.inj hmap
      match ev with
      | .evEquals =>
        left
        rw [← hrec]
      | .evContains =>
        right
        left
        rw [← hrec]
      | .evOther =>
        right
        right
        rw [← hrec]

/-- C4: shape of the records the export script writes to
`filters.json`.  `export_filters` writes one record per filter, in the
order the filters come back from the template, with exactly the keys
`name`, `categories`, `rules`, `overrides`; every rule record has
exactly the keys `param`, `condition`, `value` with condition one of
`Equals`, `Contains`, `Unknown`; the overrides object only ever has
keys among `halftone`, `line_color`, `line_pattern`,
`surface_transparency`, and its `line_color` value is a list of three
integers. -/
theorem export_filters_schema :
    (∀ fs : List FilterInfo, (export_filters fs).length = fs.length
      ∧ ∀ (i : Nat) (hi : i < fs.length) (hi2 : i < (export_filters fs).length),
          (export_filters fs).get ⟨i, hi2⟩ = .jobj
            [(strOf "name", .jstr (fs.get ⟨i, hi⟩).name),
             (strOf "categories", .jlist ((fs.get ⟨i, hi⟩).cats.map JVal.jstr)),
             (strOf "rules",
              .jlist ((parse_filter_rules (fs.get ⟨i, hi⟩).efilter).map ruleRecToJson)),
             (strOf "overrides", .jobj (parse_overrides (fs.get ⟨i, hi⟩).ogs))])
    ∧ (∀ (fs : List FilterInfo) (rec : JVal), rec ∈ export_filters fs →
        jsonKeys rec = [strOf "name", strOf "categories", strOf "rules",
          strOf "overrides"])
    ∧ (∀ (ef : ElemFilter) (r : RuleRec), r ∈ parse_filter_rules ef →
        jsonKeys (ruleRecToJson r) = [strOf "param", strOf "condition", strOf "value"]
        ∧ (r.condition = strOf "Equals" ∨ r.condition = strOf "Contains"
            ∨ r.condition = strOf "Unknown"))
    ∧ (∀ (ogs : OGS) (k : PyStr) (v : JVal), (k, v) ∈ parse_overrides ogs →
        k = strOf "halftone" ∨ k = strOf "line_color" ∨ k = strOf "line_pattern"
          ∨ k = strOf "surface_transparency")
    ∧ (∀ (ogs : OGS) (v : JVal), (strOf "line_color", v) ∈ parse_overrides ogs →
        ∃ a b c : Int, v = .jlist [.jint a, .jint b, .jint c]) := by
  have hover : ∀ (ogs : OGS) (k : PyStr) (v : JVal), (k, v) ∈ parse_overrides ogs →
      (k = strOf "halftone" ∧ v = JVal.jbool true)
      ∨ (k = strOf "line_color" ∧ v = JVal.jlist
          [JVal.jint ogs.projColorRed, JVal.jint ogs.projColorGreen,
           JVal.jint ogs.projColorBlue])
      ∨ (∃ nm, k = strOf "line_pattern" ∧ v = JVal.jstr nm)
      ∨ (k = strOf "surface_transparency" ∧ v = JVal.jint ogs.transparency) := by
    intro ogs k v hm
    unfold parse_overrides at hm
    rw [List.mem_append] at hm
    rcases hm with hm | hm
    · rw [List.mem_append] at hm
      rcases hm with hm | hm
      · rw [List.mem_append] at hm
        rcases hm with hm | hm
        · left
          have := mem_ite_singleton hm
          exact ⟨congrArg Prod.fst this, congrArg Prod.snd this⟩
        · right
          left
          have := mem_ite_singleton hm
          exact ⟨congrArg Prod.fst this, congrArg Prod.snd this⟩
      · right
        right
        left
        match hlp : ogs.linePatternName with
        | some nm =>
          rw [hlp] at hm
          have : (k, v) = (strOf "line_pattern", JVal.jstr nm) := by simpa using hm
          exact ⟨nm, congrArg Prod.fst this, congrArg Prod.snd this⟩
        | none =>
          rw [hlp] at hm
          simp at hm
    · right
      right
      right
      have := mem_ite_singleton hm
      exact ⟨congrArg Prod.fst this, congrArg Prod.snd this⟩
  refine ⟨?_, ?_, ?_, ?_, ?_⟩
  · intro fs
    refine ⟨List.length_map fs _, ?_⟩
    intro i hi hi2
    unfold export_filters
    rw [List.get_map]
  · intro fs rec hrec
    unfold export_filters at hrec
    rw [List.mem_map] at hrec
    obtain ⟨f, _, hf⟩ := hrec
    rw [← hf]
    rfl
  · intro ef r hr
    exact ⟨rfl, parse_filter_rules_conditions ef r hr⟩
  · intro ogs k v hm
    rcases hover ogs k v hm with ⟨h, _⟩ | ⟨h, _⟩ | ⟨nm, h, _⟩ | ⟨h, _⟩
    · exact Or.inl h
    · exact Or.inr (Or.inl h)
    · exact Or.inr (Or.inr (Or.inl h))
    · exact Or.inr (Or.inr (Or.inr h))
  · intro ogs v hm
    rcases hover ogs (strOf "line_color") v hm with ⟨h, _⟩ | ⟨_, h⟩ | ⟨nm, h, _⟩ | ⟨h, _⟩
    · exact absurd h (by decide)
    · exact ⟨ogs.projColorRed, ogs.projColorGreen, ogs.projColorBlue, h⟩
    · exact absurd h (by decide)
    · exact absurd h (by decide)

/-- Witness for C4: a two-filter export with an `Equals` rule, an
unknown-evaluator rule, a line color and a transparency override. -/
theorem export_filters_schema_witness :
    ((export_filters
        [⟨strOf "F1", [strOf "OST_Walls"],
          .paramFilter [.stringRule (strOf "ALL_MODEL_INSTANCE_COMMENTS")
            .evEquals (strOf "Demo"), .otherRule],
          ⟨true, true, 255, 0, 0, none, 40⟩⟩]).length = 1)
    ∧ jsonKeys ((export_filters
        [⟨strOf "F1", [strOf "OST_Walls"],
          .paramFilter [.stringRule (strOf "ALL_MODEL_INSTANCE_COMMENTS")
            .evEquals (strOf "Demo"), .otherRule],
          ⟨true, true, 255, 0, 0, none, 40⟩⟩]).get ⟨0, by decide⟩)
      = [strOf "name", strOf "categories", strOf "rules", strOf "overrides"]
    ∧ ((⟨strOf "ALL_MODEL_INSTANCE_COMMENTS", strOf "Equals", strOf "Demo"⟩ : RuleRec).condition
          = strOf "Equals"
        ∨ (⟨strOf "ALL_MODEL_INSTANCE_COMMENTS", strOf "Equals", strOf "Demo"⟩ : RuleRec).condition
          = strOf "Contains"
        ∨ (⟨strOf "ALL_MODEL_INSTANCE_COMMENTS", strOf "Equals", strOf "Demo"⟩ : RuleRec).condition
          = strOf "Unknown")
    ∧ (∃ a b c : Int,
        JVal.jlist [JVal.jint 255, JVal.jint 0, JVal.jint 0]
          = JVal.jlist [.jint a, .jint b, .jint c]) := by
  refine ⟨((export_filters_schema.1 _).1), ?_, ?_, ?_⟩
  · have := (export_filters_schema.2.1)
      [⟨strOf "F1", [strOf "OST_Walls"],
        .paramFilter [.stringRule (strOf "ALL_MODEL_INSTANCE_COMMENTS")
          .evEquals (strOf "Demo"), .otherRule],
        ⟨true, true, 255, 0, 0, none, 40⟩⟩]
      ((export_filters
        [⟨strOf "F1", [strOf "OST_Walls"],
          .paramFilter [.stringRule (strOf "ALL_MODEL_INSTANCE_COMMENTS")
            .evEquals (strOf "Demo"), .otherRule],
          ⟨true, true, 255, 0, 0, none, 40⟩⟩]).get ⟨0, by decide⟩)
      (List.get_mem _ _ _)
    exact this
  · exact (export_filters_schema.2.2.1
      (.paramFilter [.stringRule (strOf "ALL_MODEL_INSTANCE_COMMENTS")
        .evEquals (strOf "Demo"), .otherRule])
      ⟨strOf "ALL_MODEL_INSTANCE_COMMENTS", strOf "Equals", strOf "Demo"⟩
      (by decide)).2
  · exact export_filters_schema.2.2.2.2
      (⟨true, true, 255, 0, 0, none, 40⟩ : OGS)
      (JVal.jlist [JVal.jint 255, JVal.jint 0, JVal.jint 0])
      (by unfold parse_overrides
          simp)

end Huntcore

namespace Huntcore

lemma create_filter_rules_cons (r : RuleRec) (rest : List RuleRec) :
    create_filter_rules (r :: rest) =
      if pyLower r.condition = strOf "equals" then
        match create_filter_rules rest with
        | .ok l => .ok (⟨r.param, .beEquals, r.value⟩ :: l)
        | .error e => .error e
      else if pyLower r.condition = strOf "contains" then
        match create_filter_rules rest with
        | .ok l => .ok (⟨r.param, .beContains, r.value⟩ :: l)
        | .error e => .error e
      else .error (strOf "Unsupported string condition: " ++ r.condition) := rfl

/-- C5, counterexample: a filter whose string rule has an evaluator
that is neither `FilterStringEquals` nor `FilterStringContains` is
exported with condition `Unknown`, and feeding that record back to the
importer's rule construction raises `Unsupported string condition`
instead of building a rule. -/
theorem roundtrip_unknown_counterexample :
    parse_filter_rules (.paramFilter
        [.stringRule (strOf "ALL_MODEL_INSTANCE_COMMENTS") .evOther (strOf "Demo")])
      = [⟨strOf "ALL_MODEL_INSTANCE_COMMENTS", strOf "Unknown", strOf "Demo"⟩]
    ∧ create_filter_rules
        (parse_filter_rules (.paramFilter
          [.stringRule (strOf "ALL_MODEL_INSTANCE_COMMENTS") .evOther (strOf "Demo")]))
      = .error (strOf "Unsupported string condition: Unknown") :=
  ⟨rfl, rfl⟩

lemma create_filter_rules_ok_of_known : ∀ rs : List RuleRec,
    (∀ r ∈ rs, r.condition = strOf "Equals" ∨ r.condition = strOf "Contains") →
    ∃ l, create_filter_rules rs = .ok l := by
  intro rs
  induction rs with
  | nil => exact fun _ => ⟨[], rfl⟩
  | cons r rest ih =>
    intro h
    obtain ⟨l, hl⟩ := ih (fun x hx => h x (List.mem_cons_of_mem r hx))
    rcases h r (List.mem_cons_self r rest) with hc | hc
    · have hpc : pyLower r.condition = strOf "equals" := by
        rw [hc]
        decide
      refine ⟨⟨r.param, .beEquals, r.value⟩ :: l, ?_⟩
      rw [create_filter_rules_cons, hpc, if_pos rfl, hl]
    · have hpc : pyLower r.condition = strOf "contains" := by
        rw [hc]
        decide
      refine ⟨⟨r.param, .beContains, r.value⟩ :: l, ?_⟩
      rw [create_filter_rules_cons, hpc, if_neg (by decide), if_pos rfl, hl]

/-- C5, amended: the exporter-importer round trip succeeds exactly on
records whose rule conditions avoid `Unknown`: for every element filter
whose exported rule records all carry condition `Equals` or `Contains`
(equivalently, not `Unknown`), the importer's rule construction
accepts every record without raising. -/
theorem roundtrip_known_conditions_ok :
    ∀ ef : ElemFilter,
      (∀ r ∈ parse_filter_rules ef, r.condition ≠ strOf "Unknown") →
      ∃ l, create_filter_rules (parse_filter_rules ef) = .ok l := by
  intro ef h
  apply create_filter_rules_ok_of_known
  intro r hr
  rcases parse_filter_rules_conditions ef r hr with hc | hc | hc
  · exact Or.inl hc
  · exact Or.inr hc
  · exact absurd hc (h r hr)

/-- Witness for the amended C5: an export with one `Equals` and one
`Contains` rule round-trips into the importer without raising. -/
theorem roundtrip_known_conditions_ok_witness :
    ∃ l, create_filter_rules (parse_filter_rules (.paramFilter
      [.stringRule (strOf "ALL_MODEL_INSTANCE_COMMENTS") .evEquals (strOf "Demo"),
       .stringRule (strOf "ALL_MODEL_TYPE_COMMENTS") .evContains (strOf "LW1")]))
      = .ok l :=
  roundtrip_known_conditions_ok
    (.paramFilter
      [.stringRule (strOf "ALL_MODEL_INSTANCE_COMMENTS") .evEquals (strOf "Demo"),
       .stringRule (strOf "ALL_MODEL_TYPE_COMMENTS") .evContains (strOf "LW1")])
    (by decide)

end Huntcore

/-! ## `Setup.panel/Add Worksets.pushbutton/script.py` -/

namespace Huntcore

/-- A user workset of the document: its id, name and default
visibility. -/
structure WS where
  id : Nat
  name : PyStr
  vis : Bool
deriving DecidableEq

/-- The document's workset table, as the list of its user worksets. -/
abbrev DocState := List WS

/-- Behaviour of the host API calls the script makes, as failure
oracles: whether `RenameWorkset` succeeds (either of the two attempted
signatures), whether `SetWorksetVisibility` succeeds or throws, and
whether `Workset.Create` succeeds, with the exception texts attached to
each failure. -/
structure Host where
  renameOk : Nat → PyStr → Bool
  renameMsg : Nat → PyStr
  setVisOk : Nat → Bool
  setVisMsg : Nat → PyStr
  createOk : PyStr → Bool
  createMsg : PyStr → PyStr

/-- `vis_settings.SetWorksetVisibility(wid, v)` on the document. -/
def setVis (d : DocState) (wid : Nat) (v : Bool) : DocState :=
  d.map (fun w => if w.id = wid then { w with vis := v } else w)

/-- `workset_table.RenameWorkset(wid, nm)` on the document. -/
def renameWs (d : DocState) (wid : Nat) (nm : PyStr) : DocState :=
  d.map (fun w => if w.id = wid then { w with name := nm } else w)

/-- The id `Workset.Create` assigns to a new workset. -/
def freshId (d : DocState) : Nat := d.foldl (fun m w => max m w.id) 0 + 1

/-- The created/skipped/renamed/errors lists of the summary report. -/
structure Report where
  created : List PyStr
  skipped : List PyStr
  renamed : List PyStr
  errors : List PyStr
deriving DecidableEq

/-- The rename loop of the main transaction: `Workset1` goes to the
package name, `Shared Levels and Grids` to its `99_` prefix.  A rename
failure is caught by `rename_workset_safely` and recorded in `errors`;
the unprotected `SetWorksetVisibility` after a successful rename throws
out of the loop.  Iterates over the snapshot of worksets the collector
produced. -/
def renameLoop (host : Host) (w1new : Option PyStr) :
    List WS → DocState → Report → Except PyStr (DocState × Report)
  | [], d, rep => .ok (d, rep)
  | ws :: rest, d, rep =>
      if ws.name = strOf "Workset1" then
        match w1new with
        | some nm =>
            if host.renameOk ws.id nm then
              if host.setVisOk ws.id then
                renameLoop host w1new rest (setVis (renameWs d ws.id nm) ws.id true)
                  { rep with renamed := rep.renamed ++ [strOf "Workset1 to " ++ nm] }
              else .error (host.setVisMsg ws.id)
            else
              renameLoop host w1new rest d
                { rep with errors := rep.errors
                    ++ [strOf "Failed to rename to " ++ nm ++ strOf ": "
                        ++ host.renameMsg ws.id] }
        | none => renameLoop host w1new rest d rep
      else if ws.name = strOf "Shared Levels and Grids" then
        if host.renameOk ws.id (strOf "99_Shared Levels and Grids") then
          if host.setVisOk ws.id then
            renameLoop host w1new rest
              (setVis (renameWs d ws.id (strOf "99_Shared Levels and Grids")) ws.id true)
              { rep with renamed := rep.renamed
                  ++ [strOf "Shared Levels and Grids to 99_Shared Levels and Grids"] }
          else .error (host.setVisMsg ws.id)
        else
          renameLoop host w1new rest d
            { rep with errors := rep.errors
                ++ [strOf "Failed to rename to 99_Shared Levels and Grids: "
                    ++ host.renameMsg ws.id] }
      else renameLoop host w1new rest d rep

/-- The create-or-update loop of the main transaction, over the
selected names.  `existing` is the workset dictionary refreshed once
before the loop and never updated inside it.  An existing name is
skipped (its visibility set outside any inner `try`, so a failure there
throws); a new name is created and its visibility set inside the inner
`try`, any failure there being recorded in `errors`.  The last
component accumulates, for the proof, the `(name, message)` pairs that
went through the create-branch exception handler; `errors` carries the
formatted strings exactly as the script builds them. -/
def createLoop (host : Host) (predef : List (PyStr × Bool)) (existing : List WS) :
    List PyStr → DocState → Report → List (PyStr × PyStr) →
      Except PyStr (DocState × Report × List (PyStr × PyStr))
  | [], d, rep, fp => .ok (d, rep, fp)
  | name :: rest, d, rep, fp =>
      let visFlag := (predef.lookup name).getD true
      match existing.find? (fun w => decide (w.name = name)) with
      | some w =>
          if host.setVisOk w.id then
            createLoop host predef existing rest (setVis d w.id visFlag)
              { rep with skipped := rep.skipped ++ [name] } fp
          else .error (host.setVisMsg w.id)
      | none =>
          if host.createOk name then
            if host.setVisOk (freshId d) then
              createLoop host predef existing rest
                (setVis (d ++ [⟨freshId d, name, true⟩]) (freshId d) visFlag)
                { rep with created := rep.created ++ [name] } fp
            else
              createLoop host predef existing rest (d ++ [⟨freshId d, name, true⟩])
                { rep with errors := rep.errors
                    ++ [strOf "Failed to create " ++ name ++ strOf ": "
                        ++ host.setVisMsg (freshId d)] }
                (fp ++ [(name, host.setVisMsg (freshId d))])
          else
            createLoop host predef existing rest d
              { rep with errors := rep.errors
                  ++ [strOf "Failed to create " ++ name ++ strOf ": "
                      ++ host.createMsg name] }
              (fp ++ [(name, host.createMsg name)])

/-- The body of the `Manage Worksets` transaction: rename the default
worksets over the collector snapshot, refresh the existing-workset
dictionary, then create or update the selected worksets. -/
def worksetsBody (host : Host) (d0 : DocState) (selected : List PyStr)
    (predef : List (PyStr × Bool)) (w1new : Option PyStr) :
    Except PyStr (DocState × Report × List (PyStr × PyStr)) :=
  match renameLoop host w1new d0 d0 ⟨[], [], [], []⟩ with
  | .error e => .error e
  | .ok (d1, rep1) => createLoop host predef d1 selected d1 rep1 []

/-- Outcome of the script run: the transaction committed with a summary
report (the pair list is the proof-level record of create failures), or
it was rolled back because an exception escaped the body. -/
inductive RunOutcome where
  | committed : Report → List (PyStr × PyStr) → RunOutcome
  | aborted : PyStr → RunOutcome
deriving DecidableEq

/-- The explicit transaction object: `HasStarted` flag and the document
state at `Start`, restored by `RollBack`. -/
structure Txn where
  started : Bool
  snapshot : Option DocState

/-- The script around the main transaction: `t.Start()`, run the body,
`t.Commit()` on success; on an escaping exception, `t.RollBack()` when
the transaction had started, leaving the document as it was. -/
def run_add_worksets (host : Host) (d0 : DocState) (selected : List PyStr)
    (predef : List (PyStr × Bool)) (w1new : Option PyStr) :
    DocState × RunOutcome :=
  let t : Txn := { started := true, snapshot := some d0 }
  match worksetsBody host d0 selected predef w1new with
  | .ok (d1, rep, fp) => (d1, .committed rep fp)
  | .error e => (if t.started then t.snapshot.getD d0 else d0, .aborted e)

end Huntcore

namespace Huntcore

lemma run_add_worksets_eq_ok (host : Host) (d0 : DocState) (selected : List PyStr)
    (predef : List (PyStr × Bool)) (w1new : Option PyStr) (d1 : DocState)
    (rep : Report) (fp : List (PyStr × PyStr))
    (hb : worksetsBody host d0 selected predef w1new = .ok (d1, rep, fp)) :
    run_add_worksets host d0 selected predef w1new = (d1, .committed rep fp) := by
  unfold run_add_worksets
  rw [hb]

lemma run_add_worksets_eq_err (host : Host) (d0 : DocState) (selected : List PyStr)
    (predef : List (PyStr × Bool)) (w1new : Option PyStr) (e : PyStr)
    (hb : worksetsBody host d0 selected predef w1new = .error e) :
    run_add_worksets host d0 selected predef w1new = (d0, .aborted e) := by
  unfold run_add_worksets
  rw [hb]
  rfl

/-- C6: atomicity on hard failure.  Whenever an exception escapes the
body of the `Manage Worksets` transaction, the script rolls the started
transaction back before exiting, so the document's workset state after
the run is exactly the state before it, for every host behaviour,
initial document, selection and package. -/
theorem worksets_rollback_on_failure :
    ∀ (host : Host) (d0 : DocState) (selected : List PyStr)
      (predef : List (PyStr × Bool)) (w1new : Option PyStr) (e : PyStr),
      (run_add_worksets host d0 selected predef w1new).2 = .aborted e →
      (run_add_worksets host d0 selected predef w1new).1 = d0 := by
  intro host d0 selected predef w1new e h
  match hb : worksetsBody host d0 selected predef w1new with
  | .ok (d1, rep, fp) =>
    rw [run_add_worksets_eq_ok host d0 selected predef w1new d1 rep fp hb] at h
    exact RunOutcome.noConfusion h
  | .error e2 =>
    rw [run_add_worksets_eq_err host d0 selected predef w1new e2 hb]

/-- Witness for C6: one workset named `Workset1`, a host whose
`SetWorksetVisibility` always throws: the run aborts and the document
is unchanged. -/
theorem worksets_rollback_on_failure_witness :
    (run_add_worksets
        ⟨fun _ _ => true, fun _ => strOf "r", fun _ => false, fun _ => strOf "boom",
          fun _ => true, fun _ => strOf "c"⟩
        [⟨1, strOf "Workset1", false⟩] [] [] (some (strOf "00_Structures"))).2
      = .aborted (strOf "boom")
    ∧ (run_add_worksets
        ⟨fun _ _ => true, fun _ => strOf "r", fun _ => false, fun _ => strOf "boom",
          fun _ => true, fun _ => strOf "c"⟩
        [⟨1, strOf "Workset1", false⟩] [] [] (some (strOf "00_Structures"))).1
      = [⟨1, strOf "Workset1", false⟩] := by
  constructor
  · decide
  · exact worksets_rollback_on_failure
      ⟨fun _ _ => true, fun _ => strOf "r", fun _ => false, fun _ => strOf "boom",
        fun _ => true, fun _ => strOf "c"⟩
      [⟨1, strOf "Workset1", false⟩] [] [] (some (strOf "00_Structures"))
      (strOf "boom") (by decide)

lemma createLoop_cons (host : Host) (predef : List (PyStr × Bool)) (existing : List WS)
    (name : PyStr) (rest : List PyStr) (d : DocState) (rep : Report)
    (fp : List (PyStr × PyStr)) :
    createLoop host predef existing (name :: rest) d rep fp =
      match existing.find? (fun w => decide (w.name = name)) with
      | some w =>
          if host.setVisOk w.id then
            createLoop host predef existing rest
              (setVis d w.id ((predef.lookup name).getD true))
              { rep with skipped := rep.skipped ++ [name] } fp
          else .error (host.setVisMsg w.id)
      | none =>
          if host.createOk name then
            if host.setVisOk (freshId d) then
              createLoop host predef existing rest
                (setVis (d ++ [⟨freshId d, name, true⟩]) (freshId d)
                  ((predef.lookup name).getD true))
                { rep with created := rep.created ++ [name] } fp
            else
              createLoop host predef existing rest (d ++ [⟨freshId d, name, true⟩])
                { rep with errors := rep.errors
                    ++ [strOf "Failed to create " ++ name ++ strOf ": "
                        ++ host.setVisMsg (freshId d)] }
                (fp ++ [(name, host.setVisMsg (freshId d))])
          else
            createLoop host predef existing rest d
              { rep with errors := rep.errors
                  ++ [strOf "Failed to create " ++ name ++ strOf ": "
                      ++ host.createMsg name] }
              (fp ++ [(name, host.createMsg name)]) := rfl

lemma count_snoc (l : List PyStr) (x nm : PyStr) :
    (l ++ [x]).count nm = l.count nm + (if x = nm then 1 else 0) := by
  rw [List.count_append]
  simp [List.count_cons]

/-- The error string of one failed create, as the script formats it. -/
def createErrStr (p : PyStr × PyStr) : PyStr :=
  strOf "Failed to create " ++ p.1 ++ strOf ": " ++ p.2

lemma createLoop_partition :
    ∀ (sel : List PyStr) (host : Host) (predef : List (PyStr × Bool))
      (existing : List WS) (d : DocState) (rep : Report)
      (fp : List (PyStr × PyStr)) (d2 : DocState) (rep2 : Report)
      (fp2 : List (PyStr × PyStr)),
      createLoop host predef existing sel d rep fp = .ok (d2, rep2, fp2) →
      (∀ nm : PyStr,
        rep2.created.count nm + rep2.skipped.count nm + (fp2.map Prod.fst).count nm
          = rep.created.count nm + rep.skipped.count nm + (fp.map Prod.fst).count nm
            + sel.count nm)
      ∧ ∃ newPairs, fp2 = fp ++ newPairs
          ∧ rep2.errors = rep.errors ++ newPairs.map createErrStr := by
  intro sel
  induction sel with
  | nil =>
    intro host predef existing d rep fp d2 rep2 fp2 h
    have h2 : (d, rep, fp) = (d2, rep2, fp2) := Except.ok.inj h
    obtain ⟨h3, h4⟩ := Prod.mk.injEq _ _ _ _ |>.mp h2
    obtain ⟨h5, h6⟩ := Prod.mk.injEq _ _ _ _ |>.mp h4
    subst h5
    subst h6
    refine ⟨fun nm => by simp, [], by simp, by simp⟩
  | cons name rest ih =>
    intro host predef existing d rep fp d2 rep2 fp2 h
    rw [createLoop_cons] at h
    match hfind : existing.find? (fun w => decide (w.name = name)) with
    | some w =>
      rw [hfind] at h
      dsimp only at h
      by_cases hsv : host.setVisOk w.id = true
      · rw [if_pos hsv] at h
        obtain ⟨hcount, newPairs, hfp, herr⟩ := ih host predef existing _ _ _ _ _ _ h
        refine ⟨?_, newPairs, hfp, herr⟩
        intro nm
        have hc := hcount nm
        simp only [count_snoc] at hc ⊢
        rw [hc]
        simp only [List.count_cons]
        by_cases hnm : name = nm <;> simp [hnm] <;> omega
      · rw [if_neg hsv] at h
        exact Except.noConfusion h
    | none =>
      rw [hfind] at h
      dsimp only at h
      by_cases hco : host.createOk name = true
      · rw [if_pos hco] at h
        by_cases hsv : host.setVisOk (freshId d) = true
        · rw [if_pos hsv] at h
          obtain ⟨hcount, newPairs, hfp, herr⟩ := ih host predef existing _ _ _ _ _ _ h
          refine ⟨?_, newPairs, hfp, herr⟩
          intro nm
          have hc := hcount nm
          simp only [count_snoc] at hc ⊢
          rw [hc]
          simp only [List.count_cons]
          by_cases hnm : name = nm <;> simp [hnm] <;> omega
        · rw [if_neg hsv] at h
          obtain ⟨hcount, newPairs, hfp, herr⟩ := ih host predef existing _ _ _ _ _ _ h
          refine ⟨?_, (name, host.setVisMsg (freshId d)) :: newPairs, ?_, ?_⟩
          · intro nm
            have hc := hcount nm
            simp only [List.map_append, List.map_cons, List.map_nil,
              count_snoc, List.count_append] at hc ⊢
            rw [hc]
            simp only [List.count_cons]
            by_cases hnm : name = nm <;> simp [hnm] <;> omega
          · rw [hfp]
            simp
          · rw [herr]
            simp [createErrStr]
      · rw [if_neg hco] at h
        obtain ⟨hcount, newPairs, hfp, herr⟩ := ih host predef existing _ _ _ _ _ _ h
        refine ⟨?_, (name, host.createMsg name) :: newPairs, ?_, ?_⟩
        · intro nm
          have hc := hcount nm
          simp only [List.map_append, List.map_cons, List.map_nil,
            count_snoc, List.count_append] at hc ⊢
          rw [hc]
          simp only [List.count_cons]
          by_cases hnm : name = nm <;> simp [hnm] <;> omega
        · rw [hfp]
          simp
        · rw [herr]
          simp [createErrStr]

lemma renameLoop_preserves :
    ∀ (ws : List WS) (host : Host) (w1new : Option PyStr) (d : DocState)
      (rep : Report) (d1 : DocState) (rep1 : Report),
      renameLoop host w1new ws d rep = .ok (d1, rep1) →
      rep1.created = rep.created ∧ rep1.skipped = rep.skipped := by
  intro ws
  induction ws with
  | nil =>
    intro host w1new d rep d1 rep1 h
    have h2 : (d, rep) = (d1, rep1) := Except.ok.inj h
    obtain ⟨h3, h4⟩ := Prod.mk.injEq _ _ _ _ |>.mp h2
    subst h4
    exact ⟨rfl, rfl⟩
  | cons w rest ih =>
    intro host w1new d rep d1 rep1 h
    unfold renameLoop at h
    by_cases h1 : w.name = strOf "Workset1"
    · rw [if_pos h1] at h
      match hw1 : w1new with
      | some nm =>
        dsimp only at h
        by_cases hro : host.renameOk w.id nm = true
        · rw [if_pos hro] at h
          by_cases hsv : host.setVisOk w.id = true
          · rw [if_pos hsv] at h
            have hih := ih host (some nm) _ _ _ _ h
            exact ⟨hih.1, hih.2⟩
          · rw [if_neg hsv] at h
            exact Except.noConfusion h
        · rw [if_neg hro] at h
          have hih := ih host (some nm) _ _ _ _ h
          exact ⟨hih.1, hih.2⟩
      | none =>
        dsimp only at h
        have hih := ih host none _ _ _ _ h
        exact ⟨hih.1, hih.2⟩
    · rw [if_neg h1] at h
      by_cases h2 : w.name = strOf "Shared Levels and Grids"
      · rw [if_pos h2] at h
        by_cases hro : host.renameOk w.id (strOf "99_Shared Levels and Grids") = true
        · rw [if_pos hro] at h
          by_cases hsv : host.setVisOk w.id = true
          · rw [if_pos hsv] at h
            have hih := ih host w1new _ _ _ _ h
            exact ⟨hih.1, hih.2⟩
          · rw [if_neg hsv] at h
            exact Except.noConfusion h
        · rw [if_neg hro] at h
          have hih := ih host w1new _ _ _ _ h
          exact ⟨hih.1, hih.2⟩
      · rw [if_neg h2] at h
        have hih := ih host w1new _ _ _ _ h
        exact ⟨hih.1, hih.2⟩

/-- C7: on a committed run, every selected workset name lands in
exactly one of the summary lists.  Counted with multiplicity, the
created, skipped and create-failed names partition the selection, and
each create failure is reported in `errors` as its own
`Failed to create` line after the rename errors. -/
theorem worksets_summary_partition :
    ∀ (host : Host) (d0 : DocState) (selected : List PyStr)
      (predef : List (PyStr × Bool)) (w1new : Option PyStr)
      (rep : Report) (fp : List (PyStr × PyStr)),
      (run_add_worksets host d0 selected predef w1new).2 = .committed rep fp →
      (∀ nm : PyStr, selected.count nm
          = rep.created.count nm + rep.skipped.count nm + (fp.map Prod.fst).count nm)
      ∧ ∃ renameErrors, rep.errors = renameErrors ++ fp.map createErrStr := by
  intro host d0 selected predef w1new rep fp h
  match hb : worksetsBody host d0 selected predef w1new with
  | .error e =>
    rw [run_add_worksets_eq_err host d0 selected predef w1new e hb] at h
    exact RunOutcome.noConfusion h
  | .ok (d2, rep2, fp2) =>
    rw [run_add_worksets_eq_ok host d0 selected predef w1new d2 rep2 fp2 hb] at h
    obtain ⟨hrep2, hfp2⟩ := RunOutcome.committed.inj h
    subst hrep2
    subst hfp2
    unfold worksetsBody at hb
    match hr : renameLoop host w1new d0 d0 ⟨[], [], [], []⟩ with
    | .error e =>
      rw [hr] at hb
      exact Except.noConfusion hb
    | .ok (d1, rep1) =>
      rw [hr] at hb
      dsimp only at hb
      obtain ⟨hcount, newPairs, hfp, herr⟩ :=
        createLoop_partition selected host predef d1 d1 rep1 [] d2 rep2 fp2 hb
      obtain ⟨hc, hs⟩ := renameLoop_preserves d0 host w1new d0 ⟨[], [], [], []⟩ d1 rep1 hr
      constructor
      · intro nm
        have hcn := hcount nm
        rw [hc, hs] at hcn
        simp only [List.count_nil, List.map_nil] at hcn
        omega
      · refine ⟨rep1.errors, ?_⟩
        have hnf : newPairs = fp2 := by simpa using hfp.symm
        rw [herr, hnf]

/-- Witness for C7: `00_A` already exists, `00_B` is created, `00_C`
fails to create; the three selected names are partitioned across
skipped, created and errors. -/
theorem worksets_summary_partition_witness :
    (run_add_worksets
        ⟨fun _ _ => true, fun _ => strOf "r", fun _ => true, fun _ => strOf "v",
          fun nm => decide (nm ≠ strOf "00_C"), fun _ => strOf "dup"⟩
        [⟨1, strOf "00_A", true⟩] [strOf "00_A", strOf "00_B", strOf "00_C"] [] none).2
      = .committed ⟨[strOf "00_B"], [strOf "00_A"], [],
          [strOf "Failed to create " ++ strOf "00_C" ++ strOf ": " ++ strOf "dup"]⟩
        [(strOf "00_C", strOf "dup")]
    ∧ (∀ nm : PyStr, ([strOf "00_A", strOf "00_B", strOf "00_C"].count nm)
        = ([strOf "00_B"].count nm) + ([strOf "00_A"].count nm)
          + (([(strOf "00_C", strOf "dup")].map Prod.fst).count nm)) := by
  have hrun : (run_add_worksets
      ⟨fun _ _ => true, fun _ => strOf "r", fun _ => true, fun _ => strOf "v",
        fun nm => decide (nm ≠ strOf "00_C"), fun _ => strOf "dup"⟩
      [⟨1, strOf "00_A", true⟩] [strOf "00_A", strOf "00_B", strOf "00_C"] [] none).2
      = .committed ⟨[strOf "00_B"], [strOf "00_A"], [],
          [strOf "Failed to create " ++ strOf "00_C" ++ strOf ": " ++ strOf "dup"]⟩
        [(strOf "00_C", strOf "dup")] := by decide
  refine ⟨hrun, ?_⟩
  exact (worksets_summary_partition
    ⟨fun _ _ => true, fun _ => strOf "r", fun _ => true, fun _ => strOf "v",
      fun nm => decide (nm ≠ strOf "00_C"), fun _ => strOf "dup"⟩
    [⟨1, strOf "00_A", true⟩] [strOf "00_A", strOf "00_B", strOf "00_C"] [] none
    ⟨[strOf "00_B"], [strOf "00_A"], [],
      [strOf "Failed to create " ++ strOf "00_C" ++ strOf ": " ++ strOf "dup"]⟩
    [(strOf "00_C", strOf "dup")] hrun).1

end Huntcore

/-! ## `Viewport Renumber.pushbutton/script.py`: row clustering -/

namespace Huntcore

/-- One collected viewport: its element id and the center/height
computed by `viewport_center_and_height` (coordinates modelled as
rationals). -/
structure VPInfo where
  vp : Nat
  cx : ℚ
  cy : ℚ
  h : ℚ
deriving DecidableEq

/-- The key `lambda x: (-x['cy'], x['cx'])` of the main sort: higher
rows first, then left to right. -/
def byRowOrder (a b : VPInfo) : Prop := b.cy < a.cy ∨ (a.cy = b.cy ∧ a.cx ≤ b.cx)

instance : DecidableRel byRowOrder := fun a b => by
  unfold byRowOrder
  infer_instance

/-- `sorted(vp_info, key=lambda x: (-x['cy'], x['cx']))`. -/
def sortViewports (l : List VPInfo) : List VPInfo := l.insertionSort byRowOrder

/-- The key `lambda r: r['cx']` used inside each row. -/
def byCx (a b : VPInfo) : Prop := a.cx ≤ b.cx

instance : DecidableRel byCx := fun a b => by
  unfold byCx
  infer_instance

/-- The single pass of the clustering loop, carrying the reference
`last_y` of the current row and the current row itself. -/
def clusterGo (tol : ℚ) : ℚ → List VPInfo → List VPInfo → List (List VPInfo)
  | _, cur, [] => [cur]
  | refY, cur, y :: ys =>
      if |refY - y.cy| ≤ tol then clusterGo tol refY (cur ++ [y]) ys
      else cur :: clusterGo tol y.cy [y] ys

/-- The row clustering of `main`: walk the sorted viewports once,
starting a new row exactly when the center `y` moves away from the
current row's `last_y` by more than the tolerance. -/
def clusterRows (tol : ℚ) : List VPInfo → List (List VPInfo)
  | [] => []
  | x :: xs => clusterGo tol x.cy [x] xs

/-- `row_tol`: half the median of the nonzero viewport heights, never
below `1e-5` (`heights[len(heights)//2]` written with a default that is
never used on a nonempty list). -/
def rowTol (infos : List VPInfo) : ℚ :=
  let hs := ((infos.map VPInfo.h).filter
    (fun x => (1 : ℚ) / 1000000000000 < x)).insertionSort (· ≤ ·)
  if hs.isEmpty then 1 / 100000
  else max ((hs.getD (hs.length / 2) 0) * (1 / 2)) (1 / 100000)

/-- The final viewport order: rows in order, each row sorted by center
`x`. -/
def orderedViewports (tol : ℚ) (l : List VPInfo) : List VPInfo :=
  ((clusterRows tol (sortViewports l)).map (fun row => row.insertionSort byCx)).join

/-- The numbering loop: viewport `idx` of the final order receives
detail number `generate_alphanumeric(start_str, idx)`. -/
def assign_detail_numbers (start : PyStr) (ordered : List VPInfo) : List (Nat × PyStr) :=
  ordered.enum.map (fun p => (p.2.vp, generate_alphanumeric start p.1))

/-- Adjacent rows have reference centers more than the tolerance
apart. -/
def rowFar (tol : ℚ) (r1 r2 : List VPInfo) : Prop :=
  ∀ h1 h2, r1.head? = some h1 → r2.head? = some h2 → tol < |h1.cy - h2.cy|

lemma clusterGo_cons (tol refY : ℚ) (cur : List VPInfo) (y : VPInfo) (ys : List VPInfo) :
    clusterGo tol refY cur (y :: ys) =
      if |refY - y.cy| ≤ tol then clusterGo tol refY (cur ++ [y]) ys
      else cur :: clusterGo tol y.cy [y] ys := rfl

lemma clusterGo_join (tol : ℚ) :
    ∀ (rest : List VPInfo) (refY : ℚ) (cur : List VPInfo),
      (clusterGo tol refY cur rest).join = cur ++ rest := by
  intro rest
  induction rest with
  | nil =>
    intro refY cur
    simp [clusterGo]
  | cons y ys ih =>
    intro refY cur
    rw [clusterGo_cons]
    by_cases hcl : |refY - y.cy| ≤ tol
    · rw [if_pos hcl, ih]
      simp
    · rw [if_neg hcl]
      show cur.append (clusterGo tol y.cy [y] ys).join = cur ++ y :: ys
      rw [List.append_eq, ih]
      simp

lemma clusterRows_join (tol : ℚ) (l : List VPInfo) :
    (clusterRows tol l).join = l := by
  match l with
  | [] => rfl
  | x :: xs =>
    show (clusterGo tol x.cy [x] xs).join = x :: xs
    rw [clusterGo_join]
    rfl

lemma join_map_sort_perm :
    ∀ rows : List (List VPInfo),
      ((rows.map (fun row => row.insertionSort byCx)).join).Perm rows.join := by
  intro rows
  induction rows with
  | nil => exact List.Perm.refl _
  | cons r rest ih =>
    simp only [List.map_cons, List.join_cons]
    exact List.Perm.append (List.perm_insertionSort byCx r) ih

lemma orderedViewports_perm (tol : ℚ) (l : List VPInfo) :
    (orderedViewports tol l).Perm l := by
  unfold orderedViewports
  refine ((join_map_sort_perm _).trans ?_)
  rw [clusterRows_join]
  exact List.perm_insertionSort byRowOrder l

lemma head?_append_left {α : Type} (l t : List α) (a : α) (h : l.head? = some a) :
    (l ++ t).head? = some a := by
  match l, h with
  | x :: xs, h => exact h

lemma clusterGo_ne_nil (tol : ℚ) :
    ∀ (rest : List VPInfo) (refY : ℚ) (cur : List VPInfo), cur ≠ [] →
      ∀ row ∈ clusterGo tol refY cur rest, row ≠ [] := by
  intro rest
  induction rest with
  | nil =>
    intro refY cur hcur row hrow
    simp only [clusterGo, List.mem_singleton] at hrow
    rw [hrow]
    exact hcur
  | cons y ys ih =>
    intro refY cur hcur row hrow
    rw [clusterGo_cons] at hrow
    by_cases hcl : |refY - y.cy| ≤ tol
    · rw [if_pos hcl] at hrow
      exact ih refY (cur ++ [y]) (by simp) row hrow
    · rw [if_neg hcl] at hrow
      rcases List.mem_cons.mp hrow with hrow | hrow
      · rw [hrow]
        exact hcur
      · exact ih y.cy [y] (by simp) row hrow

lemma clusterGo_within (tol : ℚ) (htol : 0 ≤ tol) :
    ∀ (rest : List VPInfo) (refY : ℚ) (cur : List VPInfo) (hc : VPInfo),
      cur.head? = some hc → hc.cy = refY →
      (∀ x ∈ cur, |refY - x.cy| ≤ tol) →
      ∀ row ∈ clusterGo tol refY cur rest,
        ∀ hr, row.head? = some hr → ∀ x ∈ row, |hr.cy - x.cy| ≤ tol := by
  intro rest
  induction rest with
  | nil =>
    intro refY cur hc hhead hcy hall row hrow hr hhr x hx
    simp only [clusterGo, List.mem_singleton] at hrow
    subst hrow
    rw [hhead] at hhr
    have hrc : hr = hc := (Option.some.inj hhr).symm
    subst hrc
    rw [hcy]
    exact hall x hx
  | cons y ys ih =>
    intro refY cur hc hhead hcy hall row hrow hr hhr x hx
    rw [clusterGo_cons] at hrow
    by_cases hcl : |refY - y.cy| ≤ tol
    · rw [if_pos hcl] at hrow
      refine ih refY (cur ++ [y]) hc (head?_append_left cur [y] hc hhead) hcy ?_ row hrow hr hhr x hx
      intro z hz
      rcases List.mem_append.mp hz with hz | hz
      · exact hall z hz
      · rw [List.mem_singleton.mp hz]
        exact hcl
    · rw [if_neg hcl] at hrow
      rcases List.mem_cons.mp hrow with hrow | hrow
      · subst hrow
        rw [hhead] at hhr
        have hrc : hr = hc := (Option.some.inj hhr).symm
        subst hrc
        rw [hcy]
        exact hall x hx
      · refine ih y.cy [y] y rfl rfl ?_ row hrow hr hhr x hx
        intro z hz
        rw [List.mem_singleton.mp hz]
        simpa using htol

lemma clusterGo_first_head (tol : ℚ) :
    ∀ (rest : List VPInfo) (refY : ℚ) (cur : List VPInfo), cur ≠ [] →
      ∃ r0 l0, clusterGo tol refY cur rest = r0 :: l0 ∧ r0.head? = cur.head? := by
  intro rest
  induction rest with
  | nil =>
    intro refY cur hcur
    exact ⟨cur, [], rfl, rfl⟩
  | cons y ys ih =>
    intro refY cur hcur
    rw [clusterGo_cons]
    by_cases hcl : |refY - y.cy| ≤ tol
    · rw [if_pos hcl]
      obtain ⟨r0, l0, heq, hh⟩ := ih refY (cur ++ [y]) (by simp)
      refine ⟨r0, l0, heq, ?_⟩
      rw [hh]
      match cur, hcur with
      | c :: cs, _ => rfl
    · rw [if_neg hcl]
      exact ⟨cur, _, rfl, rfl⟩

lemma clusterGo_chain (tol : ℚ) :
    ∀ (rest : List VPInfo) (refY : ℚ) (cur : List VPInfo) (hc : VPInfo),
      cur.head? = some hc → hc.cy = refY →
      List.Chain' (rowFar tol) (clusterGo tol refY cur rest) := by
  intro rest
  induction rest with
  | nil =>
    intro refY cur hc hhead hcy
    exact List.chain'_singleton cur
  | cons y ys ih =>
    intro refY cur hc hhead hcy
    rw [clusterGo_cons]
    by_cases hcl : |refY - y.cy| ≤ tol
    · rw [if_pos hcl]
      exact ih refY (cur ++ [y]) hc (head?_append_left cur [y] hc hhead) hcy
    · rw [if_neg hcl]
      rw [List.chain'_cons']
      constructor
      · intro b hb
        obtain ⟨r0, l0, heq, hh⟩ := clusterGo_first_head tol ys y.cy [y] (by simp)
        rw [heq] at hb
        simp only [List.head?_cons, Option.mem_def, Option.some.injEq] at hb
        subst hb
        intro h1 h2 hh1 hh2
        rw [hhead] at hh1
        have h1c : h1 = hc := (Option.some.inj hh1).symm
        subst h1c
        rw [hh] at hh2
        have h2y : h2 = y := by
          have := hh2
          simp only [List.head?_cons, Option.some.injEq] at this
          exact this.symm
        subst h2y
        rw [hcy]
        exact lt_of_not_le hcl
      · exact ih y.cy [y] y rfl rfl
end Huntcore

namespace Huntcore

lemma assign_map_fst (start : PyStr) (o : List VPInfo) :
    (assign_detail_numbers start o).map Prod.fst = o.map VPInfo.vp := by
  unfold assign_detail_numbers
  rw [List.map_map]
  have hfun : (Prod.fst ∘ fun p : Nat × VPInfo =>
      (p.2.vp, generate_alphanumeric start p.1)) = (VPInfo.vp ∘ Prod.snd) := rfl
  rw [hfun, ← List.map_map]
  rw [show List.map Prod.snd o.enum = o from List.enumFrom_map_snd 0 o]

lemma rowTol_pos (l : List VPInfo) : 0 < rowTol l := by
  unfold rowTol
  dsimp only
  split_ifs with h
  · norm_num
  · exact lt_of_lt_of_le (by norm_num) (le_max_right _ _)

/-- C8: the row/column clustering of the renumbering script is a
single-pass partition.  Joining the rows gives back the input list
unchanged; the final order (rows in order, each row sorted by center
x) is a permutation of the collected viewports; with a nonnegative
tolerance every element of a row is within the tolerance of the row's
reference center y while adjacent rows' references are more than the
tolerance apart (a new row starts exactly on such a jump); the computed
`row_tol` is positive; and the numbering assigns position `idx` of the
final order the number `generate_alphanumeric(start, idx)`, so each
collected viewport gets exactly one new detail number. -/
theorem viewport_clustering_spec :
    (∀ (tol : ℚ) (l : List VPInfo), (clusterRows tol l).join = l)
    ∧ (∀ (tol : ℚ) (l : List VPInfo), (orderedViewports tol l).Perm l)
    ∧ (∀ (tol : ℚ) (l : List VPInfo), 0 ≤ tol →
        (∀ row ∈ clusterRows tol l, row ≠ []
          ∧ ∀ hr, row.head? = some hr → ∀ x ∈ row, |hr.cy - x.cy| ≤ tol)
        ∧ List.Chain' (rowFar tol) (clusterRows tol l))
    ∧ (∀ l : List VPInfo, 0 < rowTol l)
    ∧ (∀ (start : PyStr) (tol : ℚ) (l : List VPInfo),
        ((assign_detail_numbers start (orderedViewports tol l)).map Prod.fst).Perm
          (l.map VPInfo.vp)
        ∧ ∀ (i : Nat) (hi : i < (orderedViewports tol l).length)
            (hi2 : i < (assign_detail_numbers start (orderedViewports tol l)).length),
            (assign_detail_numbers start (orderedViewports tol l)).get ⟨i, hi2⟩
              = (((orderedViewports tol l).get ⟨i, hi⟩).vp,
                  generate_alphanumeric start i)) := by
  refine ⟨clusterRows_join, orderedViewports_perm, ?_, rowTol_pos, ?_⟩
  · intro tol l htol
    match l with
    | [] =>
      constructor
      · intro row hrow
        simp [clusterRows] at hrow
      · simp [clusterRows]
    | x :: xs =>
      constructor
      · intro row hrow
        refine ⟨clusterGo_ne_nil tol xs x.cy [x] (by simp) row hrow, ?_⟩
        exact clusterGo_within tol htol xs x.cy [x] x rfl rfl
          (by intro z hz
              rw [List.mem_singleton.mp hz]
              simpa using htol)
          row hrow
      · exact clusterGo_chain tol xs x.cy [x] x rfl rfl
  · intro start tol l
    constructor
    · rw [assign_map_fst]
      exact List.Perm.map VPInfo.vp (orderedViewports_perm tol l)
    · intro i hi hi2
      unfold assign_detail_numbers
      rw [List.get_map]
      congr 1 <;> simp [List.getElem_enum]

/-- Witness for C8: three viewports, two on the top row and one below,
clustered with tolerance 1; the first position of the final order is
viewport 1 with detail number 1. -/
theorem viewport_clustering_spec_witness :
    ((∀ row ∈ clusterRows 1
          [⟨1, 0, 10, 2⟩, ⟨2, 5, 10, 2⟩, ⟨3, 0, 0, 2⟩], row ≠ []
        ∧ ∀ hr, row.head? = some hr → ∀ x ∈ row, |hr.cy - x.cy| ≤ 1)
      ∧ List.Chain' (rowFar 1)
          (clusterRows 1 [⟨1, 0, 10, 2⟩, ⟨2, 5, 10, 2⟩, ⟨3, 0, 0, 2⟩]))
    ∧ (assign_detail_numbers (strOf "1")
        (orderedViewports 1 [⟨1, 0, 10, 2⟩, ⟨2, 5, 10, 2⟩, ⟨3, 0, 0, 2⟩])).head?
        = some (1, strOf "1") := by
  have horder : orderedViewports 1 [⟨1, 0, 10, 2⟩, ⟨2, 5, 10, 2⟩, ⟨3, 0, 0, 2⟩]
      = [⟨1, 0, 10, 2⟩, ⟨2, 5, 10, 2⟩, ⟨3, 0, 0, 2⟩] := by
    norm_num [orderedViewports, clusterRows, clusterGo, sortViewports,
      List.insertionSort, List.orderedInsert, byRowOrder, byCx]
  constructor
  · exact viewport_clustering_spec.2.2.1 1
      [⟨1, 0, 10, 2⟩, ⟨2, 5, 10, 2⟩, ⟨3, 0, 0, 2⟩] (by norm_num)
  · have hi : 0 < (orderedViewports 1
        [⟨1, 0, 10, 2⟩, ⟨2, 5, 10, 2⟩, ⟨3, 0, 0, 2⟩]).length := by
      rw [horder]
      decide
    have hi2 : 0 < (assign_detail_numbers (strOf "1") (orderedViewports 1
        [⟨1, 0, 10, 2⟩, ⟨2, 5, 10, 2⟩, ⟨3, 0, 0, 2⟩])).length := by
      rw [horder]
      decide
    have hget := (viewport_clustering_spec.2.2.2.2 (strOf "1") 1
      [⟨1, 0, 10, 2⟩, ⟨2, 5, 10, 2⟩, ⟨3, 0, 0, 2⟩]).2 0 hi hi2
    rw [List.head?_eq_getElem?, List.getElem?_eq_getElem hi2,
      show (assign_detail_numbers (strOf "1")
        (orderedViewports 1 [⟨1, 0, 10, 2⟩, ⟨2, 5, 10, 2⟩, ⟨3, 0, 0, 2⟩]))[0]
        = (assign_detail_numbers (strOf "1")
          (orderedViewports 1 [⟨1, 0, 10, 2⟩, ⟨2, 5, 10, 2⟩, ⟨3, 0, 0, 2⟩])).get ⟨0, hi2⟩
        from rfl,
      hget]
    have h0 : (orderedViewports 1 [⟨1, 0, 10, 2⟩, ⟨2, 5, 10, 2⟩, ⟨3, 0, 0, 2⟩])[0]?
        = some ⟨1, 0, 10, 2⟩ := by
      rw [horder]
      rfl
    have h1 : (orderedViewports 1 [⟨1, 0, 10, 2⟩, ⟨2, 5, 10, 2⟩, ⟨3, 0, 0, 2⟩])[0]?
        = some ((orderedViewports 1
          [⟨1, 0, 10, 2⟩, ⟨2, 5, 10, 2⟩, ⟨3, 0, 0, 2⟩]).get ⟨0, hi⟩) :=
      List.getElem?_eq_getElem hi
    have hv := Option.some.inj (h1.symm.trans h0)
    rw [hv]
    decide

end Huntcore
